import Mathlib

/-!
Verification of the `inflight` package (duplicate function call suppression).

The Go source (`inflight.go`) consists of:

* `call[T]`: an in-flight function execution, holding an atomic counter
  `callers` and `onceFunc`, the caller-supplied function wrapped with
  `sync.OnceValues` so it is executed exactly once;
* `call.do`: `c.callers.Add(1); defer c.callers.Add(-1);
  value, err := c.onceFunc(); return value, c.callers.Load(), err`;
* `Group.Do`: `call, loaded := g.m.LoadOrStore(key, newCall(fn));
  if !loaded { defer g.m.CompareAndDelete(key, call) };
  value, callers, err := call.do(); shared := loaded || callers > 1;
  return value, shared, err`;
* `Group.Forget`: `g.m.LoadAndDelete(key)`.

We model this concurrent program as a small-step interleaving transition
system.  A global state holds the registry map (`Group.m`), the pool of
`call` instances (identified by a numeric id, which plays the role of the
pointer identity used by `CompareAndDelete`), one thread per top-level
`Do`/`Forget` invocation, and a log of the atomic events performed so far.
Each thread is a program counter walking through the atomic actions of
`Group.Do` in source order:

* `Pc.start`   — the atomic `LoadOrStore` (and owner determination);
* `Pc.incr`    — `c.callers.Add(1)`;
* `Pc.obtain`  — entering `c.onceFunc()`: the first thread to arrive while
  the call is `idle` claims the execution (`sync.OnceValues` semantics) and
  moves to `Pc.finish`; threads arriving while it is `running` block;
  threads arriving when it is `done` read the memoized outcome;
* `Pc.finish`  — the claiming thread runs `fn` and stores the outcome;
* `Pc.load`    — `c.callers.Load()` in the return statement of `call.do`;
* `Pc.decr`    — the deferred `c.callers.Add(-1)`;
* `Pc.cleanup` — computing `shared`/the results of `Do`, and, for the
  owner (`!loaded`), the deferred `g.m.CompareAndDelete(key, call)`;
* `Pc.halted`  — `Do` (or `Forget`) has returned.

A `Forget` thread performs its single atomic `LoadAndDelete` at `Pc.start`.
The scheduler is an arbitrary list of thread ids; a scheduled thread that
is blocked (a waiter inside `onceFunc` while the call is `running`) simply
does not advance, so every interleaving of the real program is a schedule.

The caller-supplied functions are modelled by an environment
`env : Nat → V × Option E` assigning to each operation identifier its
returned `(value, error)` pair (`none` = nil error); executing an
operation is observable as a `beginRun`/`endRun` pair in the event log,
which is how "the operation increments a shared counter" side effects are
counted.
-/

set_option linter.unusedSectionVars false

namespace Inflight

/-- A top-level invocation: `Group.Do key fn` (with `opId` identifying the
supplied function `fn`) or `Group.Forget key`. -/
inductive Prog (K : Type) where
  | doCall (key : K) (opId : Nat)
  | forget (key : K)
deriving DecidableEq, Repr

/-- The key argument of the invocation. -/
def Prog.key {K : Type} : Prog K → K
  | .doCall k _ => k
  | .forget k => k

/-- `true` iff the invocation is a `Group.Do`. -/
def Prog.isDo {K : Type} : Prog K → Bool
  | .doCall _ _ => true
  | .forget _ => false

/-- Program counter: the atomic actions of `Group.Do` in source order
(see the module docstring). -/
inductive Pc where
  | start | incr | obtain | finish | load | decr | cleanup | halted
deriving DecidableEq, Repr

/-- The state of the `sync.OnceValues`-wrapped function of a `call`:
not yet invoked, currently being run by the claiming thread, or completed
with a memoized outcome. -/
inductive Status (V E : Type) where
  | idle
  | running
  | done (out : V × Option E)
deriving DecidableEq, Repr

/-- `true` iff the status is `idle`. -/
def Status.isIdle {V E : Type} : Status V E → Bool
  | .idle => true
  | _ => false

/-- One `call[T]` instance: the identifier of the wrapped function
(`onceFunc` wraps the creator's `fn`), the `sync.OnceValues` state, and the
atomic `callers` counter. -/
structure CallSt (V E : Type) where
  opId : Nat
  status : Status V E
  callers : Int
deriving DecidableEq, Repr

/-- The local state of one thread running `Group.Do` or `Group.Forget`:
its program, program counter, and the local variables of `Do`/`call.do`
(`callId` = the pointer identity of the `call` obtained from `LoadOrStore`,
`loaded` = the second result of `LoadOrStore`, `ranOp` = whether this
thread's `onceFunc` invocation was the one that ran `fn`, `cadOk` = the
result of the owner's `CompareAndDelete`, `count` = the value read by
`c.callers.Load()`, `outcome` = `(value, err)` from `onceFunc`, `result` =
the `(value, shared, err)` triple returned by `Do`). -/
structure Thread (K V E : Type) where
  prog : Prog K
  pc : Pc := .start
  callId : Nat := 0
  loaded : Bool := false
  ranOp : Bool := false
  cadOk : Bool := false
  count : Int := 0
  outcome : Option (V × Option E) := none
  result : Option (V × Bool × Option E) := none

/-- The observable atomic events, each tagged with the thread (`tid`) that
performed it and the `call` instance (`cid`) it concerns. -/
inductive Event (K : Type) where
  | lors (tid : Nat) (key : K) (cid : Nat) (loaded : Bool)
  | incr (tid : Nat) (cid : Nat)
  | beginRun (tid : Nat) (cid : Nat)
  | endRun (tid : Nat) (cid : Nat)
  | got (tid : Nat) (cid : Nat)
  | loadCnt (tid : Nat) (cid : Nat) (n : Int)
  | decrEv (tid : Nat) (cid : Nat)
  | cad (tid : Nat) (key : K) (cid : Nat) (ok : Bool)
  | forgetEv (tid : Nat) (key : K)
deriving DecidableEq, Repr

/-- The thread that performed an event. -/
def Event.tid {K : Type} : Event K → Nat
  | .lors t _ _ _ => t
  | .incr t _ => t
  | .beginRun t _ => t
  | .endRun t _ => t
  | .got t _ => t
  | .loadCnt t _ _ => t
  | .decrEv t _ => t
  | .cad t _ _ _ => t
  | .forgetEv t _ => t

/-- The `call` instance an event concerns, if any. -/
def Event.cid {K : Type} : Event K → Option Nat
  | .lors _ _ c _ => some c
  | .incr _ c => some c
  | .beginRun _ c => some c
  | .endRun _ c => some c
  | .got _ c => some c
  | .loadCnt _ c _ => some c
  | .decrEv _ c => some c
  | .cad _ _ c _ => some c
  | .forgetEv _ _ => none

/-- The global state: number of threads, thread pool, the registry map
`Group.m` (key ↦ identity of the registered `call`), the allocator for
`call` identities, the `call` pool, and the event log. -/
structure GState (K V E : Type) where
  n : Nat
  threads : Nat → Option (Thread K V E)
  registry : K → Option Nat
  nextCall : Nat
  calls : Nat → Option (CallSt V E)
  events : List (Event K)

/-- Initial state for a list of top-level invocations: every thread at
`Pc.start`, empty registry (`Group`'s zero value), no `call` instances. -/
def mkState {K V E : Type} (progs : List (Prog K)) : GState K V E :=
  { n := progs.length
    threads := fun i => (progs[i]?).map fun p => { prog := p }
    registry := fun _ => none
    nextCall := 0
    calls := fun _ => none
    events := [] }

variable {K V E : Type} [DecidableEq K]

/-- Replace the local state of thread `tid`. -/
def setThr (s : GState K V E) (tid : Nat) (t : Thread K V E) :
    Nat → Option (Thread K V E) :=
  fun i => if i = tid then some t else s.threads i

/-- The registry after an atomic removal of `key`
(`LoadAndDelete` / a successful `CompareAndDelete`). -/
def delKey (r : K → Option Nat) (key : K) : K → Option Nat :=
  fun k => if k = key then none else r k

/-- The registry after an atomic store of `key ↦ cid` (`LoadOrStore`). -/
def putKey (r : K → Option Nat) (key : K) (cid : Nat) : K → Option Nat :=
  fun k => if k = key then some cid else r k

/-- The call pool after writing instance `cid`. -/
def putCall (cs : Nat → Option (CallSt V E)) (cid : Nat) (c : CallSt V E) :
    Nat → Option (CallSt V E) :=
  fun x => if x = cid then some c else cs x

/-- One atomic step of thread `tid` (no-op if the thread does not exist,
has returned, or is blocked inside `onceFunc`).  Each case is the direct
transcription of one atomic action of the Go source, as listed in the
module docstring. -/
def step (env : Nat → V × Option E) (s : GState K V E) (tid : Nat) :
    GState K V E :=
  match s.threads tid with
  | none => s
  | some t =>
    match t.pc with
    | .halted => s
    | .start =>
      match t.prog with
      | .forget key =>
        -- Group.Forget: g.m.LoadAndDelete(key)
        { s with
          registry := delKey s.registry key
          threads := setThr s tid { t with pc := .halted }
          events := s.events ++ [.forgetEv tid key] }
      | .doCall key op =>
        -- Group.Do: call, loaded := g.m.LoadOrStore(key, newCall(fn))
        match s.registry key with
        | some cid =>
          { s with
            threads := setThr s tid
              { t with pc := .incr, callId := cid, loaded := true }
            events := s.events ++ [.lors tid key cid true] }
        | none =>
          { s with
            registry := putKey s.registry key s.nextCall
            calls := putCall s.calls s.nextCall
              { opId := op, status := .idle, callers := 0 }
            nextCall := s.nextCall + 1
            threads := setThr s tid
              { t with pc := .incr, callId := s.nextCall, loaded := false }
            events := s.events ++ [.lors tid key s.nextCall false] }
    | .incr =>
      -- call.do: c.callers.Add(1)
      match s.calls t.callId with
      | none => s
      | some c =>
        { s with
          calls := putCall s.calls t.callId { c with callers := c.callers + 1 }
          threads := setThr s tid { t with pc := .obtain }
          events := s.events ++ [.incr tid t.callId] }
    | .obtain =>
      -- call.do: entering c.onceFunc() (sync.OnceValues)
      match s.calls t.callId with
      | none => s
      | some c =>
        match c.status with
        | .idle =>
          -- this invocation claims the one execution of fn
          { s with
            calls := putCall s.calls t.callId { c with status := .running }
            threads := setThr s tid { t with pc := .finish, ranOp := true }
            events := s.events ++ [.beginRun tid t.callId] }
        | .running => s  -- blocked until the claiming thread finishes
        | .done out =>
          { s with
            threads := setThr s tid { t with pc := .load, outcome := some out }
            events := s.events ++ [.got tid t.callId] }
    | .finish =>
      -- the claiming thread runs fn and OnceValues memoizes its outcome
      match s.calls t.callId with
      | none => s
      | some c =>
        { s with
          calls := putCall s.calls t.callId
            { c with status := .done (env c.opId) }
          threads := setThr s tid
            { t with pc := .load, outcome := some (env c.opId) }
          events := s.events ++ [.endRun tid t.callId, .got tid t.callId] }
    | .load =>
      -- call.do: c.callers.Load() in the return statement
      match s.calls t.callId with
      | none => s
      | some c =>
        { s with
          threads := setThr s tid { t with pc := .decr, count := c.callers }
          events := s.events ++ [.loadCnt tid t.callId c.callers] }
    | .decr =>
      -- call.do: deferred c.callers.Add(-1)
      match s.calls t.callId with
      | none => s
      | some c =>
        { s with
          calls := putCall s.calls t.callId { c with callers := c.callers - 1 }
          threads := setThr s tid { t with pc := .cleanup }
          events := s.events ++ [.decrEv tid t.callId] }
    | .cleanup =>
      -- Group.Do: shared := loaded || callers > 1; return,
      -- and for the owner the deferred g.m.CompareAndDelete(key, call)
      match t.outcome with
      | none => s
      | some out =>
        if t.loaded then
          { s with
            threads := setThr s tid
              { t with
                pc := .halted
                result := some (out.1, t.loaded || decide (1 < t.count), out.2) } }
        else
          if s.registry t.prog.key = some t.callId then
            { s with
              registry := delKey s.registry t.prog.key
              threads := setThr s tid
                { t with
                  pc := .halted
                  result := some (out.1, t.loaded || decide (1 < t.count), out.2)
                  cadOk := true }
              events := s.events ++ [.cad tid t.prog.key t.callId true] }
          else
            { s with
              threads := setThr s tid
                { t with
                  pc := .halted
                  result := some (out.1, t.loaded || decide (1 < t.count), out.2)
                  cadOk := false }
              events := s.events ++ [.cad tid t.prog.key t.callId false] }

/-- Run a schedule: fold `step` over a list of thread ids. -/
def run (env : Nat → V × Option E) (s : GState K V E) (σ : List Nat) :
    GState K V E :=
  σ.foldl (step env) s

/-! ### Accessors on the final state -/

/-- `true` iff thread `tid` exists and its `Do`/`Forget` has returned. -/
def haltedAt (s : GState K V E) (tid : Nat) : Bool :=
  match s.threads tid with
  | some t => t.pc = .halted
  | none => false

/-- All of the first `N` threads have returned. -/
def allHalted (s : GState K V E) (N : Nat) : Prop :=
  ∀ tid, tid < N → haltedAt s tid = true

instance (s : GState K V E) (N : Nat) : Decidable (allHalted s N) :=
  Nat.decidableBallLT N fun tid _ => haltedAt s tid = true

/-- The program of thread `tid`. -/
def progOf (s : GState K V E) (tid : Nat) : Option (Prog K) :=
  (s.threads tid).map Thread.prog

/-- The identity of the `call` thread `tid` obtained from `LoadOrStore`
(`0` if the thread does not exist). -/
def callIdOf (s : GState K V E) (tid : Nat) : Nat :=
  match s.threads tid with
  | some t => t.callId
  | none => 0

/-- The `loaded` result of thread `tid`'s `LoadOrStore` (`false` if the
thread does not exist). -/
def loadedOf (s : GState K V E) (tid : Nat) : Bool :=
  match s.threads tid with
  | some t => t.loaded
  | none => false

/-- Whether thread `tid`'s `onceFunc` invocation ran `fn` itself. -/
def ranOpOf (s : GState K V E) (tid : Nat) : Bool :=
  match s.threads tid with
  | some t => t.ranOp
  | none => false

/-- The result of thread `tid`'s `CompareAndDelete` (`false` if none). -/
def cadOkOf (s : GState K V E) (tid : Nat) : Bool :=
  match s.threads tid with
  | some t => t.cadOk
  | none => false

/-- The `callers` value thread `tid` read with `c.callers.Load()`. -/
def countOf (s : GState K V E) (tid : Nat) : Int :=
  match s.threads tid with
  | some t => t.count
  | none => 0

/-- The `(value, err)` pair thread `tid` received from `onceFunc`. -/
def outcomeOf (s : GState K V E) (tid : Nat) : Option (V × Option E) :=
  (s.threads tid).bind Thread.outcome

/-- The `(value, shared, err)` triple thread `tid`'s `Do` returned. -/
def resultOf (s : GState K V E) (tid : Nat) : Option (V × Bool × Option E) :=
  (s.threads tid).bind Thread.result

/-! ### Event-log helpers -/

/-- The events performed by thread `tid`, in order. -/
def thrEvents (tid : Nat) (evs : List (Event K)) : List (Event K) :=
  evs.filter fun e => e.tid = tid

/-- `true` iff the event is a `beginRun`, i.e. the start of one execution
of a caller-supplied function. -/
def Event.isBeginRun {K' : Type} : Event K' → Bool
  | .beginRun _ _ => true
  | _ => false

/-- How many executions of caller-supplied functions the log records. -/
def countBeginRun (evs : List (Event K)) : Nat :=
  (evs.filter Event.isBeginRun).length

/-- How many executions of `call` instance `cid`'s function the log
records. -/
def execsFor (cid : Nat) (evs : List (Event K)) : Nat :=
  (evs.filter fun e => match e with
    | .beginRun _ c => c = cid
    | _ => false).length

/-- `true` iff the event is a successful `CompareAndDelete`, i.e. an
owner's removal of its `call` from the registry. -/
def Event.isCadTrue {K' : Type} : Event K' → Bool
  | .cad _ _ _ ok => ok
  | _ => false

/-- `true` iff the event is any `CompareAndDelete` attempt. -/
def Event.isCad {K' : Type} : Event K' → Bool
  | .cad _ _ _ _ => true
  | _ => false

/-- `true` iff the event is a `LoadOrStore`. -/
def Event.isLors {K' : Type} : Event K' → Bool
  | .lors _ _ _ _ => true
  | _ => false

/-- `true` iff the event is the `LoadOrStore` that *stored* `call`
instance `cid` (i.e. created it). -/
def Event.isStoreOf {K' : Type} (cid : Nat) : Event K' → Bool
  | .lors _ _ c loaded => !loaded && c = cid
  | _ => false

/-- Scan of the log: `seen` records whether a successful removal has
already occurred; fails on a `LoadOrStore` after one. -/
def nlacAux (seen : Bool) : List (Event K) → Bool
  | [] => true
  | e :: rest =>
      if e.isLors && seen then false
      else nlacAux (seen || e.isCadTrue) rest

/-- `true` iff no `LoadOrStore` appears in the log after a successful
removal: the formalization of "all the `Do` calls were concurrent with the
first one" (every caller registered before any registry entry was
removed by a completing owner). -/
def noLorsAfterCad (evs : List (Event K)) : Bool :=
  nlacAux false evs

/-- The complete list of events a thread with local state `t` has
performed, determined by its program counter: the exact source order of
the atomic actions of `Group.Do` (respectively `Group.Forget`). -/
def pcTrace (tid : Nat) (t : Thread K V E) : List (Event K) :=
  match t.prog with
  | .forget key =>
    match t.pc with
    | .start => []
    | _ => [.forgetEv tid key]
  | .doCall key _ =>
    match t.pc with
    | .start => []
    | .incr => [.lors tid key t.callId t.loaded]
    | .obtain => [.lors tid key t.callId t.loaded, .incr tid t.callId]
    | .finish => [.lors tid key t.callId t.loaded, .incr tid t.callId,
                  .beginRun tid t.callId]
    | .load =>
      [.lors tid key t.callId t.loaded, .incr tid t.callId]
      ++ (if t.ranOp then [.beginRun tid t.callId, .endRun tid t.callId]
          else [])
      ++ [.got tid t.callId]
    | .decr =>
      [.lors tid key t.callId t.loaded, .incr tid t.callId]
      ++ (if t.ranOp then [.beginRun tid t.callId, .endRun tid t.callId]
          else [])
      ++ [.got tid t.callId, .loadCnt tid t.callId t.count]
    | .cleanup =>
      [.lors tid key t.callId t.loaded, .incr tid t.callId]
      ++ (if t.ranOp then [.beginRun tid t.callId, .endRun tid t.callId]
          else [])
      ++ [.got tid t.callId, .loadCnt tid t.callId t.count,
          .decrEv tid t.callId]
    | .halted =>
      [.lors tid key t.callId t.loaded, .incr tid t.callId]
      ++ (if t.ranOp then [.beginRun tid t.callId, .endRun tid t.callId]
          else [])
      ++ [.got tid t.callId, .loadCnt tid t.callId t.count,
          .decrEv tid t.callId]
      ++ (if t.loaded then []
          else [.cad tid key t.callId t.cadOk])

/-! ### A case view of `step`

`StepShape env s tid s'` enumerates the possible outcomes of
`step env s tid`, with the preconditions of each transition recorded as
hypotheses and the successor state given as an explicit record.  All
invariant-preservation proofs case on this view instead of re-splitting
the nested match of `step`. -/

inductive StepShape (env : Nat → V × Option E) (s : GState K V E)
    (tid : Nat) : GState K V E → Prop where
  | stall : StepShape env s tid s
  | forgetStep (t : Thread K V E) (key : K)
      (hth : s.threads tid = some t) (hpc : t.pc = .start)
      (hpr : t.prog = .forget key) :
      StepShape env s tid
        { s with
          registry := delKey s.registry key
          threads := setThr s tid { t with pc := .halted }
          events := s.events ++ [.forgetEv tid key] }
  | joinStep (t : Thread K V E) (key : K) (op cid : Nat)
      (hth : s.threads tid = some t) (hpc : t.pc = .start)
      (hpr : t.prog = .doCall key op) (hreg : s.registry key = some cid) :
      StepShape env s tid
        { s with
          threads := setThr s tid
            { t with pc := .incr, callId := cid, loaded := true }
          events := s.events ++ [.lors tid key cid true] }
  | storeStep (t : Thread K V E) (key : K) (op : Nat)
      (hth : s.threads tid = some t) (hpc : t.pc = .start)
      (hpr : t.prog = .doCall key op) (hreg : s.registry key = none) :
      StepShape env s tid
        { s with
          registry := putKey s.registry key s.nextCall
          calls := putCall s.calls s.nextCall
            { opId := op, status := .idle, callers := 0 }
          nextCall := s.nextCall + 1
          threads := setThr s tid
            { t with pc := .incr, callId := s.nextCall, loaded := false }
          events := s.events ++ [.lors tid key s.nextCall false] }
  | incrStep (t : Thread K V E) (c : CallSt V E)
      (hth : s.threads tid = some t) (hpc : t.pc = .incr)
      (hc : s.calls t.callId = some c) :
      StepShape env s tid
        { s with
          calls := putCall s.calls t.callId { c with callers := c.callers + 1 }
          threads := setThr s tid { t with pc := .obtain }
          events := s.events ++ [.incr tid t.callId] }
  | claimStep (t : Thread K V E) (c : CallSt V E)
      (hth : s.threads tid = some t) (hpc : t.pc = .obtain)
      (hc : s.calls t.callId = some c) (hst : c.status = .idle) :
      StepShape env s tid
        { s with
          calls := putCall s.calls t.callId { c with status := .running }
          threads := setThr s tid { t with pc := .finish, ranOp := true }
          events := s.events ++ [.beginRun tid t.callId] }
  | readStep (t : Thread K V E) (c : CallSt V E) (out : V × Option E)
      (hth : s.threads tid = some t) (hpc : t.pc = .obtain)
      (hc : s.calls t.callId = some c) (hst : c.status = .done out) :
      StepShape env s tid
        { s with
          threads := setThr s tid { t with pc := .load, outcome := some out }
          events := s.events ++ [.got tid t.callId] }
  | finishStep (t : Thread K V E) (c : CallSt V E)
      (hth : s.threads tid = some t) (hpc : t.pc = .finish)
      (hc : s.calls t.callId = some c) :
      StepShape env s tid
        { s with
          calls := putCall s.calls t.callId
            { c with status := .done (env c.opId) }
          threads := setThr s tid
            { t with pc := .load, outcome := some (env c.opId) }
          events := s.events ++ [.endRun tid t.callId, .got tid t.callId] }
  | loadStep (t : Thread K V E) (c : CallSt V E)
      (hth : s.threads tid = some t) (hpc : t.pc = .load)
      (hc : s.calls t.callId = some c) :
      StepShape env s tid
        { s with
          threads := setThr s tid { t with pc := .decr, count := c.callers }
          events := s.events ++ [.loadCnt tid t.callId c.callers] }
  | decrStep (t : Thread K V E) (c : CallSt V E)
      (hth : s.threads tid = some t) (hpc : t.pc = .decr)
      (hc : s.calls t.callId = some c) :
      StepShape env s tid
        { s with
          calls := putCall s.calls t.callId { c with callers := c.callers - 1 }
          threads := setThr s tid { t with pc := .cleanup }
          events := s.events ++ [.decrEv tid t.callId] }
  | haltLoaded (t : Thread K V E) (out : V × Option E)
      (hth : s.threads tid = some t) (hpc : t.pc = .cleanup)
      (hout : t.outcome = some out) (hld : t.loaded = true) :
      StepShape env s tid
        { s with
          threads := setThr s tid
            { t with
              pc := .halted
              result := some (out.1, t.loaded || decide (1 < t.count), out.2) } }
  | haltCadTrue (t : Thread K V E) (out : V × Option E)
      (hth : s.threads tid = some t) (hpc : t.pc = .cleanup)
      (hout : t.outcome = some out) (hld : t.loaded = false)
      (hreg : s.registry t.prog.key = some t.callId) :
      StepShape env s tid
        { s with
          registry := delKey s.registry t.prog.key
          threads := setThr s tid
            { t with
              pc := .halted
              result := some (out.1, t.loaded || decide (1 < t.count), out.2)
              cadOk := true }
          events := s.events ++ [.cad tid t.prog.key t.callId true] }
  | haltCadFalse (t : Thread K V E) (out : V × Option E)
      (hth : s.threads tid = some t) (hpc : t.pc = .cleanup)
      (hout : t.outcome = some out) (hld : t.loaded = false)
      (hreg : s.registry t.prog.key ≠ some t.callId) :
      StepShape env s tid
        { s with
          threads := setThr s tid
            { t with
              pc := .halted
              result := some (out.1, t.loaded || decide (1 < t.count), out.2)
              cadOk := false }
          events := s.events ++ [.cad tid t.prog.key t.callId false] }

/-! ### The global invariant

`WF env s` collects the facts preserved by every step from an initial
state.  They tie each thread's locals to the shared state and to the event
log, and in particular record that a `call`'s function is executed at most
once (`execs_status`), that memoized outcomes come verbatim from the
environment (`done_env`, `outcome_done`), that a completed `Do` returned
`(value, loaded || callers > 1, err)` built from its memoized outcome
(`result_spec`), and that the per-thread event log is exactly the source
order of `Group.Do`'s atomic actions (`trace_some`). -/

structure WF (env : Nat → V × Option E) (s : GState K V E) : Prop where
  dom_lt : ∀ i, i < s.n → (s.threads i).isSome = true
  dom_ge : ∀ i, s.n ≤ i → s.threads i = none
  callId_lt : ∀ i t, s.threads i = some t → ∀ k o,
    t.prog = .doCall k o → t.pc ≠ .start → t.callId < s.nextCall
  calls_dom : ∀ cid, (s.calls cid).isSome = true ↔ cid < s.nextCall
  reg_lt : ∀ k cid, s.registry k = some cid → cid < s.nextCall
  forget_pc : ∀ i t, s.threads i = some t → ∀ k, t.prog = .forget k →
    t.pc = .start ∨ t.pc = .halted
  ranop_early : ∀ i t, s.threads i = some t →
    t.pc = .start ∨ t.pc = .incr ∨ t.pc = .obtain → t.ranOp = false
  outcome_early : ∀ i t, s.threads i = some t →
    t.pc = .start ∨ t.pc = .incr ∨ t.pc = .obtain ∨ t.pc = .finish →
    t.outcome = none
  finish_inv : ∀ i t, s.threads i = some t → t.pc = .finish →
    t.ranOp = true ∧ ∃ c, s.calls t.callId = some c ∧ c.status = .running
  finish_uniq : ∀ i j t u, s.threads i = some t → s.threads j = some u →
    t.pc = .finish → u.pc = .finish → t.callId = u.callId → i = j
  outcome_done : ∀ i t, s.threads i = some t → ∀ out,
    t.outcome = some out →
    ∃ c, s.calls t.callId = some c ∧ c.status = .done out
  done_env : ∀ cid c, s.calls cid = some c → ∀ out,
    c.status = .done out → out = env c.opId
  execs_status : ∀ cid c, s.calls cid = some c →
    execsFor cid s.events = if c.status.isIdle then 0 else 1
  ev_lt : ∀ e, e ∈ s.events → ∀ cid, e.cid = some cid → cid < s.nextCall
  result_halted : ∀ i t, s.threads i = some t → t.result.isSome = true →
    t.pc = .halted
  result_spec : ∀ i t, s.threads i = some t → ∀ k o,
    t.prog = .doCall k o → t.pc = .halted →
    ∃ out, t.outcome = some out ∧
      t.result = some (out.1, t.loaded || decide (1 < t.count), out.2)
  trace_some : ∀ i t, s.threads i = some t →
    thrEvents i s.events = pcTrace i t
  trace_none : ∀ i, s.threads i = none → thrEvents i s.events = []
  store_uniq : ∀ cid,
    (s.events.filter (Event.isStoreOf cid)).length ≤ 1

/-! ### The solo-run invariant (claim C7) -/

/-- The window in which a thread's `callers.Add(1)` has happened and its
deferred `callers.Add(-1)` has not. -/
def soloAttached : Pc → Bool
  | .obtain => true
  | .finish => true
  | .load => true
  | .decr => true
  | _ => false

/-- Invariant of a run whose only thread is a single `Do k op`: it always
finds the registry empty (stores, never joins), its `call` is instance
`0`, that call's `callers` counter is `1` exactly while the thread is
attached, and the count it read is at most `1`. -/
structure SoloInv (k : K) (op : Nat) (s : GState K V E) : Prop where
  dom : ∀ i, i ≠ 0 → s.threads i = none
  thr : ∀ t, s.threads 0 = some t →
    t.prog = .doCall k op ∧ t.loaded = false ∧
    (t.pc = .start → (∀ k', s.registry k' = none) ∧ s.nextCall = 0) ∧
    (t.pc ≠ .start → t.callId = 0) ∧
    (∀ c, s.calls 0 = some c →
      c.callers = (if soloAttached t.pc = true then 1 else 0)) ∧
    (t.pc = .decr ∨ t.pc = .cleanup ∨ t.pc = .halted → t.count ≤ 1)

/-- Invariant of a run whose threads are all `Do k op`: at most one `call`
instance ever exists, and once it does, either it is still registered
under `k` or some successful removal is already in the log. -/
structure OneKey (k : K) (op : Nat) (s : GState K V E) : Prop where
  prog : ∀ i t, s.threads i = some t → t.prog = .doCall k op
  nc : s.nextCall ≤ 1
  reg : s.nextCall = 1 →
    s.registry k = some 0 ∨ s.events.any Event.isCadTrue = true

/-! ### Concrete runs witnessing the theorems above -/

/-- All operations succeed with value 7. -/
def envA : Nat → Nat × Option Unit := fun _ => (7, none)

/-- All operations fail: value 7 with a non-nil error. -/
def envErr : Nat → Nat × Option Unit := fun _ => (7, some ())

/-- Two `Do` invocations on key 5 with the same function. -/
def progsPair : List (Prog Nat) := [.doCall 5 0, .doCall 5 0]

/-- An interleaving where thread 1 joins thread 0's execution. -/
def schedPair : List Nat := [0, 1, 0, 0, 0, 1, 1, 0, 0, 0, 0, 1, 1, 1]

def stPair : GState Nat Nat Unit := run envA (mkState progsPair) schedPair

def stPairErr : GState Nat Nat Unit :=
  run envErr (mkState progsPair) schedPair

def stSolo : GState Nat Nat Unit :=
  run envErr (mkState [Prog.doCall 5 0]) [0, 0, 0, 0, 0, 0, 0]

def stForget : GState Nat Nat Unit :=
  run envA (mkState [Prog.doCall 3 0, Prog.forget 5]) [0]

/-- `step` always lands in one of the shapes of `StepShape`. -/
theorem step_shape (env : Nat → V × Option E) (s : GState K V E)
    (tid : Nat) : StepShape env s tid (step env s tid) := by
  unfold step
  split
  · exact .stall
  rename_i t hth
  split
  · -- Pc.halted
    exact .stall
  · -- Pc.start
    rename_i hpc
    split
    · rename_i key hpr
      exact .forgetStep t key hth hpc hpr
    · rename_i key op hpr
      split
      · rename_i cid hreg
        exact .joinStep t key op cid hth hpc hpr hreg
      · rename_i hreg
        exact .storeStep t key op hth hpc hpr hreg
  · -- Pc.incr
    rename_i hpc
    split
    · exact .stall
    · rename_i c hc
      exact .incrStep t c hth hpc hc
  · -- Pc.obtain
    rename_i hpc
    split
    · exact .stall
    · rename_i c hc
      split
      · rename_i hst
        exact .claimStep t c hth hpc hc hst
      · exact .stall
      · rename_i out hst
        exact .readStep t c out hth hpc hc hst
  · -- Pc.finish
    rename_i hpc
    split
    · exact .stall
    · rename_i c hc
      exact .finishStep t c hth hpc hc
  · -- Pc.load
    rename_i hpc
    split
    · exact .stall
    · rename_i c hc
      exact .loadStep t c hth hpc hc
  · -- Pc.decr
    rename_i hpc
    split
    · exact .stall
    · rename_i c hc
      exact .decrStep t c hth hpc hc
  · -- Pc.cleanup
    rename_i hpc
    split
    · exact .stall
    · rename_i out hout
      split
      · rename_i hld
        exact .haltLoaded t out hth hpc hout hld
      · rename_i hld
        rw [Bool.not_eq_true] at hld
        split
        · rename_i hreg
          exact .haltCadTrue t out hth hpc hout hld hreg
        · rename_i hreg
          exact .haltCadFalse t out hth hpc hout hld hreg

/-! ### Basic lemmas about the helpers -/

theorem setThr_self (s : GState K V E) (tid : Nat) (t : Thread K V E) :
    setThr s tid t tid = some t := by
  simp [setThr]

theorem setThr_ne (s : GState K V E) {i tid : Nat} (t : Thread K V E)
    (h : i ≠ tid) : setThr s tid t i = s.threads i := by
  simp [setThr, h]

theorem setThr_cases {s : GState K V E} {tid : Nat} {t' : Thread K V E}
    {P : Nat → Thread K V E → Prop} (hnew : P tid t')
    (hold : ∀ i u, s.threads i = some u → i ≠ tid → P i u) :
    ∀ i u, setThr s tid t' i = some u → P i u := by
  intro i u hi
  by_cases h : i = tid
  · subst h
    rw [setThr_self] at hi
    cases hi
    exact hnew
  · rw [setThr_ne s _ h] at hi
    exact hold i u hi h

theorem setThr_isSome {s : GState K V E} {tid : Nat} {t : Thread K V E}
    (t' : Thread K V E) (hth : s.threads tid = some t) :
    ∀ i, ((setThr s tid t' i).isSome) = (s.threads i).isSome := by
  intro i
  by_cases h : i = tid
  · subst h; rw [setThr_self, hth]; rfl
  · rw [setThr_ne s _ h]

theorem setThr_none {s : GState K V E} {tid : Nat} {t t' : Thread K V E}
    (hth : s.threads tid = some t)
    (hdom : ∀ i, s.n ≤ i → s.threads i = none) :
    ∀ i, s.n ≤ i → setThr s tid t' i = none := by
  intro i hi
  have hit : i ≠ tid := by
    rintro rfl
    rw [hdom i hi] at hth
    cases hth
  rw [setThr_ne s _ hit]
  exact hdom i hi

theorem putCall_self (cs : Nat → Option (CallSt V E)) (cid : Nat)
    (c : CallSt V E) : putCall cs cid c cid = some c := by
  simp [putCall]

theorem putCall_ne (cs : Nat → Option (CallSt V E)) {x cid : Nat}
    (c : CallSt V E) (h : x ≠ cid) : putCall cs cid c x = cs x := by
  simp [putCall, h]

theorem putCall_cases {cs : Nat → Option (CallSt V E)} {cid : Nat}
    {c : CallSt V E} {P : Nat → CallSt V E → Prop} (hnew : P cid c)
    (hold : ∀ x u, cs x = some u → x ≠ cid → P x u) :
    ∀ x u, putCall cs cid c x = some u → P x u := by
  intro x u hx
  by_cases h : x = cid
  · subst h
    rw [putCall_self] at hx
    cases hx
    exact hnew
  · rw [putCall_ne _ _ h] at hx
    exact hold x u hx h

theorem putCall_isSome (cs : Nat → Option (CallSt V E)) {cid : Nat}
    (c : CallSt V E) (hc : (cs cid).isSome = true) :
    ∀ x, (putCall cs cid c x).isSome = (cs x).isSome := by
  intro x
  by_cases h : x = cid
  · subst h; rw [putCall_self, Option.isSome_some, hc]
  · rw [putCall_ne _ _ h]

theorem delKey_self (r : K → Option Nat) (key : K) :
    delKey r key key = none := by simp [delKey]

theorem delKey_ne (r : K → Option Nat) {k key : K} (h : k ≠ key) :
    delKey r key k = r k := by simp [delKey, h]

theorem putKey_self (r : K → Option Nat) (key : K) (cid : Nat) :
    putKey r key cid key = some cid := by simp [putKey]

theorem putKey_ne (r : K → Option Nat) {k key : K} (cid : Nat)
    (h : k ≠ key) : putKey r key cid k = r k := by simp [putKey, h]

/-! ### Lemmas about the event-log helpers -/

theorem thrEvents_append (tid : Nat) (l m : List (Event K)) :
    thrEvents tid (l ++ m) = thrEvents tid l ++ thrEvents tid m := by
  simp [thrEvents, List.filter_append]

theorem thrEvents_own (tid : Nat) (l : List (Event K))
    (h : ∀ e ∈ l, e.tid = tid) : thrEvents tid l = l := by
  simp only [thrEvents, List.filter_eq_self]
  intro e he
  simp [h e he]

theorem thrEvents_other (tid : Nat) (l : List (Event K))
    (h : ∀ e ∈ l, e.tid ≠ tid) : thrEvents tid l = [] := by
  simp only [thrEvents, List.filter_eq_nil_iff]
  intro e he
  simp [h e he]

theorem execsFor_append (cid : Nat) (l m : List (Event K)) :
    execsFor cid (l ++ m) = execsFor cid l + execsFor cid m := by
  simp [execsFor, List.filter_append]

theorem execsFor_no_begin (cid : Nat) (l : List (Event K))
    (h : ∀ e ∈ l, e.isBeginRun = false) : execsFor cid l = 0 := by
  simp only [execsFor, List.length_eq_zero, List.filter_eq_nil_iff]
  intro e he
  have hb := h e he
  cases e <;> simp_all [Event.isBeginRun]

theorem countBeginRun_append (l m : List (Event K)) :
    countBeginRun (l ++ m) = countBeginRun l + countBeginRun m := by
  simp [countBeginRun, List.filter_append]

theorem nlacAux_cons (seen : Bool) (e : Event K) (rest : List (Event K)) :
    nlacAux seen (e :: rest) =
      if e.isLors && seen then false
      else nlacAux (seen || e.isCadTrue) rest := rfl

theorem nlacAux_append (seen : Bool) (l m : List (Event K)) :
    nlacAux seen (l ++ m) =
      if nlacAux seen l then nlacAux (seen || l.any Event.isCadTrue) m
      else false := by
  induction l generalizing seen with
  | nil => simp [nlacAux]
  | cons e l ih =>
    rw [List.cons_append, nlacAux_cons, nlacAux_cons]
    by_cases h : (e.isLors && seen) = true
    · simp [h]
    · rw [if_neg h, if_neg h, ih, List.any_cons, Bool.or_assoc]

theorem noLorsAfterCad_of_append {l m : List (Event K)}
    (h : noLorsAfterCad (l ++ m) = true) : noLorsAfterCad l = true := by
  rw [noLorsAfterCad, nlacAux_append] at h
  by_cases hc : nlacAux false l = true
  · exact hc
  · rw [if_neg hc] at h
    cases h

theorem noLorsAfterCad_no_new_lors {l : List (Event K)} {e : Event K}
    (hc : l.any Event.isCadTrue = true) (he : e.isLors = true)
    (m : List (Event K)) : noLorsAfterCad (l ++ e :: m) = false := by
  rw [noLorsAfterCad, nlacAux_append, hc]
  by_cases h : nlacAux false l = true
  · rw [if_pos h]
    simp [nlacAux, he]
  · rw [if_neg h]

theorem wf_init (env : Nat → V × Option E) (progs : List (Prog K)) :
    WF env (mkState (V := V) (E := E) progs) := by
  constructor
  · intro i hi
    simp only [mkState, Option.isSome_map]
    rw [List.getElem?_eq_getElem hi]
    rfl
  · intro i hi
    simp only [mkState]
    rw [List.getElem?_eq_none hi]
    rfl
  · intro i t ht k o _ hpc
    simp only [mkState, Option.map_eq_some'] at ht
    obtain ⟨p, _, rfl⟩ := ht
    simp at hpc
  · intro cid
    simp [mkState]
  · intro k cid h
    simp [mkState] at h
  · intro i t ht k _
    simp only [mkState, Option.map_eq_some'] at ht
    obtain ⟨p, _, rfl⟩ := ht
    left; rfl
  · intro i t ht _
    simp only [mkState, Option.map_eq_some'] at ht
    obtain ⟨p, _, rfl⟩ := ht
    rfl
  · intro i t ht _
    simp only [mkState, Option.map_eq_some'] at ht
    obtain ⟨p, _, rfl⟩ := ht
    rfl
  · intro i t ht hpc
    simp only [mkState, Option.map_eq_some'] at ht
    obtain ⟨p, _, rfl⟩ := ht
    simp at hpc
  · intro i j t u ht hu hpt _ _
    simp only [mkState, Option.map_eq_some'] at ht
    obtain ⟨p, _, rfl⟩ := ht
    simp at hpt
  · intro i t ht out hout
    simp only [mkState, Option.map_eq_some'] at ht
    obtain ⟨p, _, rfl⟩ := ht
    simp at hout
  · intro cid c hc
    simp [mkState] at hc
  · intro cid c hc
    simp [mkState] at hc
  · intro e he
    simp [mkState] at he
  · intro i t ht hres
    simp only [mkState, Option.map_eq_some'] at ht
    obtain ⟨p, _, rfl⟩ := ht
    simp at hres
  · intro i t ht k o _ hpc
    simp only [mkState, Option.map_eq_some'] at ht
    obtain ⟨p, _, rfl⟩ := ht
    simp at hpc
  · intro i t ht
    simp only [mkState, Option.map_eq_some'] at ht
    obtain ⟨p, _, rfl⟩ := ht
    simp [mkState, thrEvents, pcTrace]
    cases p <;> rfl
  · intro i _
    simp [mkState, thrEvents]
  · intro cid
    simp [mkState]

/-! ### Generic preservation sub-lemmas -/

theorem finish_uniq_of_setThr {s : GState K V E} {tid : Nat}
    {t' : Thread K V E}
    (h : ∀ i j t u, s.threads i = some t → s.threads j = some u →
      t.pc = .finish → u.pc = .finish → t.callId = u.callId → i = j)
    (hnf : t'.pc ≠ .finish) :
    ∀ i j a b, setThr s tid t' i = some a → setThr s tid t' j = some b →
      a.pc = .finish → b.pc = .finish → a.callId = b.callId → i = j := by
  intro i j a b ha hb hfa hfb hcab
  by_cases hi : i = tid
  · subst hi; rw [setThr_self] at ha; cases ha; exact absurd hfa hnf
  · rw [setThr_ne s _ hi] at ha
    by_cases hj : j = tid
    · subst hj; rw [setThr_self] at hb; cases hb; exact absurd hfb hnf
    · rw [setThr_ne s _ hj] at hb
      exact h i j a b ha hb hfa hfb hcab

theorem thrEvents_own_append {s : GState K V E} {tid : Nat}
    {t : Thread K V E} (Δ : List (Event K))
    (h16 : thrEvents tid s.events = pcTrace tid t)
    (hΔ : ∀ e ∈ Δ, Event.tid e = tid) :
    thrEvents tid (s.events ++ Δ) = pcTrace tid t ++ Δ := by
  rw [thrEvents_append, h16, thrEvents_own _ _ hΔ]

theorem thrEvents_other_append (i : Nat) {l Δ : List (Event K)}
    (hΔ : ∀ e ∈ Δ, Event.tid e ≠ i) :
    thrEvents i (l ++ Δ) = thrEvents i l := by
  rw [thrEvents_append, thrEvents_other _ _ hΔ, List.append_nil]

theorem ev_lt_append {l m : List (Event K)} {n : Nat}
    (h : ∀ e ∈ l, ∀ cid, Event.cid e = some cid → cid < n)
    (hΔ : ∀ e ∈ m, ∀ cid, Event.cid e = some cid → cid < n) :
    ∀ e ∈ l ++ m, ∀ cid, Event.cid e = some cid → cid < n := by
  intro e he
  rcases List.mem_append.1 he with h1 | h2
  exacts [h _ h1, hΔ _ h2]

theorem ev_lt_mono {l : List (Event K)} {n n' : Nat} (hle : n ≤ n')
    (h : ∀ e ∈ l, ∀ cid, Event.cid e = some cid → cid < n) :
    ∀ e ∈ l, ∀ cid, Event.cid e = some cid → cid < n' := by
  intro e he cid hc
  exact lt_of_lt_of_le (h e he cid hc) hle

theorem execsFor_append_no_begin {Δ : List (Event K)}
    (hb : ∀ e ∈ Δ, e.isBeginRun = false) (cid : Nat)
    (l : List (Event K)) :
    execsFor cid (l ++ Δ) = execsFor cid l := by
  rw [execsFor_append, execsFor_no_begin cid Δ hb, Nat.add_zero]

theorem store_uniq_append {l Δ : List (Event K)}
    (h : ∀ cid, (l.filter (Event.isStoreOf cid)).length ≤ 1)
    (hΔ : ∀ cid, ∀ e ∈ Δ, Event.isStoreOf cid e = false) :
    ∀ cid, ((l ++ Δ).filter (Event.isStoreOf cid)).length ≤ 1 := by
  intro cid
  rw [List.filter_append, List.length_append]
  have : (Δ.filter (Event.isStoreOf cid)).length = 0 := by
    simp only [List.length_eq_zero, List.filter_eq_nil_iff]
    intro e he
    simp [hΔ cid e he]
  rw [this, Nat.add_zero]
  exact h cid

/-- At any program counter other than `start`/`halted`, the thread is a
`Do` invocation. -/
theorem prog_isDo {env : Nat → V × Option E} {s : GState K V E}
    (h : WF env s) {i : Nat} {t : Thread K V E}
    (hth : s.threads i = some t) (h1 : t.pc ≠ .start)
    (h2 : t.pc ≠ .halted) : ∃ k o, t.prog = .doCall k o := by
  cases hpr : t.prog with
  | doCall k o => exact ⟨k, o, rfl⟩
  | forget k =>
    rcases h.forget_pc i t hth k hpr with hc | hc
    · exact absurd hc h1
    · exact absurd hc h2

/-! ### Preservation of the invariant, case by case -/

theorem wf_forget {env : Nat → V × Option E} {s : GState K V E}
    {tid : Nat} {t : Thread K V E} {key : K} (h : WF env s)
    (hth : s.threads tid = some t) (hpc : t.pc = .start)
    (hpr : t.prog = .forget key) :
    WF env
      { s with
        registry := delKey s.registry key
        threads := setThr s tid { t with pc := .halted }
        events := s.events ++ [.forgetEv tid key] } := by
  have hΔtid : ∀ e ∈ [Event.forgetEv tid key (K := K)], Event.tid e = tid := by
    intro e he
    simp only [List.mem_singleton] at he
    subst he; rfl
  have hΔnb : ∀ e ∈ [Event.forgetEv tid key (K := K)],
      Event.isBeginRun e = false := by
    intro e he
    simp only [List.mem_singleton] at he
    subst he; rfl
  constructor
  all_goals dsimp only
  · intro i hi
    exact (setThr_isSome _ hth i).trans (h.dom_lt i hi)
  · exact setThr_none hth h.dom_ge
  · refine setThr_cases ?_ ?_
    · intro k o hdo
      dsimp only at hdo
      rw [hpr] at hdo
      cases hdo
    · intro i u hu _ k o hdo hne
      exact h.callId_lt i u hu k o hdo hne
  · exact h.calls_dom
  · intro k cid hk
    by_cases hkey : k = key
    · subst hkey; rw [delKey_self] at hk; cases hk
    · rw [delKey_ne _ hkey] at hk
      exact h.reg_lt k cid hk
  · refine setThr_cases ?_ ?_
    · intro k _
      right; rfl
    · intro i u hu _ k hk
      exact h.forget_pc i u hu k hk
  · refine setThr_cases ?_ ?_
    · intro hin
      rcases hin with hc | hc | hc <;> cases hc
    · intro i u hu _ hin
      exact h.ranop_early i u hu hin
  · refine setThr_cases ?_ ?_
    · intro hin
      rcases hin with hc | hc | hc | hc <;> cases hc
    · intro i u hu _ hin
      exact h.outcome_early i u hu hin
  · refine setThr_cases ?_ ?_
    · intro hfin
      cases hfin
    · intro i u hu _ hfin
      exact h.finish_inv i u hu hfin
  · exact finish_uniq_of_setThr h.finish_uniq (by intro hc; cases hc)
  · refine setThr_cases ?_ ?_
    · intro out hout
      exact h.outcome_done tid t hth out hout
    · intro i u hu _ out hout
      exact h.outcome_done i u hu out hout
  · exact h.done_env
  · intro cid c hc
    rw [execsFor_append_no_begin hΔnb]
    exact h.execs_status cid c hc
  · refine ev_lt_append h.ev_lt ?_
    intro e he cid hc
    simp only [List.mem_singleton] at he
    subst he
    cases hc
  · refine setThr_cases ?_ ?_
    · intro _
      rfl
    · intro i u hu _ hres
      exact h.result_halted i u hu hres
  · refine setThr_cases ?_ ?_
    · intro k o hdo
      dsimp only at hdo
      rw [hpr] at hdo
      cases hdo
    · intro i u hu _ k o hdo hhalt
      exact h.result_spec i u hu k o hdo hhalt
  · refine setThr_cases ?_ ?_
    · rw [thrEvents_own_append _ (h.trace_some tid t hth) hΔtid]
      simp [pcTrace, hpr, hpc]
    · intro i u hu hne
      rw [thrEvents_other_append i (by
        intro e he
        simp only [List.mem_singleton] at he
        subst he
        simpa [Event.tid] using Ne.symm hne)]
      exact h.trace_some i u hu
  · intro i hnone
    have hne : i ≠ tid := by
      rintro rfl
      rw [setThr_self] at hnone
      cases hnone
    rw [setThr_ne s _ hne] at hnone
    rw [thrEvents_other_append i (by
      intro e he
      simp only [List.mem_singleton] at he
      subst he
      simpa [Event.tid] using Ne.symm hne)]
    exact h.trace_none i hnone
  · refine store_uniq_append h.store_uniq ?_
    intro cid e he
    simp only [List.mem_singleton] at he
    subst he
    rfl

theorem isStoreOf_cid {e : Event K} {cid : Nat}
    (h : Event.isStoreOf cid e = true) : Event.cid e = some cid := by
  cases e <;> simp_all [Event.isStoreOf, Event.cid]

theorem execsFor_zero_of_lt {l : List (Event K)} {n : Nat}
    (h : ∀ e ∈ l, ∀ cid, Event.cid e = some cid → cid < n) :
    execsFor n l = 0 := by
  simp only [execsFor, List.length_eq_zero, List.filter_eq_nil_iff]
  intro e he
  cases e with
  | beginRun t c =>
    have hlt := h _ he c rfl
    simp only [decide_eq_true_eq]
    omega
  | lors t k c l => simp
  | incr t c => simp
  | endRun t c => simp
  | got t c => simp
  | loadCnt t c n => simp
  | decrEv t c => simp
  | cad t k c ok => simp
  | forgetEv t k => simp

theorem wf_join {env : Nat → V × Option E} {s : GState K V E}
    {tid : Nat} {t : Thread K V E} {key : K} {op cid : Nat} (h : WF env s)
    (hth : s.threads tid = some t) (hpc : t.pc = .start)
    (hpr : t.prog = .doCall key op) (hreg : s.registry key = some cid) :
    WF env
      { s with
        threads := setThr s tid
          { t with pc := .incr, callId := cid, loaded := true }
        events := s.events ++ [.lors tid key cid true] } := by
  have hΔtid : ∀ e ∈ [Event.lors tid key cid true], Event.tid e = tid := by
    intro e he
    simp only [List.mem_singleton] at he
    subst he; rfl
  have hΔnb : ∀ e ∈ [Event.lors tid key cid true],
      Event.isBeginRun e = false := by
    intro e he
    simp only [List.mem_singleton] at he
    subst he; rfl
  constructor
  all_goals dsimp only
  · intro i hi
    exact (setThr_isSome _ hth i).trans (h.dom_lt i hi)
  · exact setThr_none hth h.dom_ge
  · refine setThr_cases ?_ ?_
    · intro k o _ _
      exact h.reg_lt key cid hreg
    · intro i u hu _ k o hdo hne
      exact h.callId_lt i u hu k o hdo hne
  · exact h.calls_dom
  · exact h.reg_lt
  · refine setThr_cases ?_ ?_
    · intro k hk
      dsimp only at hk
      rw [hpr] at hk
      cases hk
    · intro i u hu _ k hk
      exact h.forget_pc i u hu k hk
  · refine setThr_cases ?_ ?_
    · intro _
      exact h.ranop_early tid t hth (Or.inl hpc)
    · intro i u hu _ hin
      exact h.ranop_early i u hu hin
  · refine setThr_cases ?_ ?_
    · intro _
      exact h.outcome_early tid t hth (Or.inl hpc)
    · intro i u hu _ hin
      exact h.outcome_early i u hu hin
  · refine setThr_cases ?_ ?_
    · intro hfin
      cases hfin
    · intro i u hu _ hfin
      exact h.finish_inv i u hu hfin
  · exact finish_uniq_of_setThr h.finish_uniq (by intro hc; cases hc)
  · refine setThr_cases ?_ ?_
    · intro out hout
      dsimp only at hout
      rw [h.outcome_early tid t hth (Or.inl hpc)] at hout
      cases hout
    · intro i u hu _ out hout
      exact h.outcome_done i u hu out hout
  · exact h.done_env
  · intro cid' c hc
    rw [execsFor_append_no_begin hΔnb]
    exact h.execs_status cid' c hc
  · refine ev_lt_append h.ev_lt ?_
    intro e he cid' hc
    simp only [List.mem_singleton] at he
    subst he
    simp only [Event.cid, Option.some.injEq] at hc
    subst hc
    exact h.reg_lt key _ hreg
  · refine setThr_cases ?_ ?_
    · intro hres
      dsimp only at hres
      have := h.result_halted tid t hth hres
      rw [hpc] at this
      cases this
    · intro i u hu _ hres
      exact h.result_halted i u hu hres
  · refine setThr_cases ?_ ?_
    · intro k o _ hhalt
      cases hhalt
    · intro i u hu _ k o hdo hhalt
      exact h.result_spec i u hu k o hdo hhalt
  · refine setThr_cases ?_ ?_
    · rw [thrEvents_own_append _ (h.trace_some tid t hth) hΔtid]
      simp [pcTrace, hpr, hpc]
    · intro i u hu hne
      rw [thrEvents_other_append i (by
        intro e he
        simp only [List.mem_singleton] at he
        subst he
        simpa [Event.tid] using Ne.symm hne)]
      exact h.trace_some i u hu
  · intro i hnone
    have hne : i ≠ tid := by
      rintro rfl
      rw [setThr_self] at hnone
      cases hnone
    rw [setThr_ne s _ hne] at hnone
    rw [thrEvents_other_append i (by
      intro e he
      simp only [List.mem_singleton] at he
      subst he
      simpa [Event.tid] using Ne.symm hne)]
    exact h.trace_none i hnone
  · refine store_uniq_append h.store_uniq ?_
    intro cid' e he
    simp only [List.mem_singleton] at he
    subst he
    rfl

theorem wf_store {env : Nat → V × Option E} {s : GState K V E}
    {tid : Nat} {t : Thread K V E} {key : K} {op : Nat} (h : WF env s)
    (hth : s.threads tid = some t) (hpc : t.pc = .start)
    (hpr : t.prog = .doCall key op) (hreg : s.registry key = none) :
    WF env
      { s with
        registry := putKey s.registry key s.nextCall
        calls := putCall s.calls s.nextCall
          { opId := op, status := .idle, callers := 0 }
        nextCall := s.nextCall + 1
        threads := setThr s tid
          { t with pc := .incr, callId := s.nextCall, loaded := false }
        events := s.events ++ [.lors tid key s.nextCall false] } := by
  have hΔtid : ∀ e ∈ [Event.lors tid key s.nextCall false],
      Event.tid e = tid := by
    intro e he
    simp only [List.mem_singleton] at he
    subst he; rfl
  have hΔnb : ∀ e ∈ [Event.lors tid key s.nextCall false],
      Event.isBeginRun e = false := by
    intro e he
    simp only [List.mem_singleton] at he
    subst he; rfl
  constructor
  all_goals dsimp only
  · intro i hi
    exact (setThr_isSome _ hth i).trans (h.dom_lt i hi)
  · exact setThr_none hth h.dom_ge
  · refine setThr_cases ?_ ?_
    · intro k o _ _
      exact Nat.lt_succ_self _
    · intro i u hu _ k o hdo hne
      exact Nat.lt_succ_of_lt (h.callId_lt i u hu k o hdo hne)
  · intro cid
    by_cases hcid : cid = s.nextCall
    · subst hcid
      rw [putCall_self]
      simp [Nat.lt_succ_self]
    · rw [putCall_ne _ _ hcid]
      rw [h.calls_dom cid]
      omega
  · intro k cid hk
    by_cases hkey : k = key
    · subst hkey
      rw [putKey_self] at hk
      cases hk
      exact Nat.lt_succ_self _
    · rw [putKey_ne _ _ hkey] at hk
      exact Nat.lt_succ_of_lt (h.reg_lt k cid hk)
  · refine setThr_cases ?_ ?_
    · intro k hk
      dsimp only at hk
      rw [hpr] at hk
      cases hk
    · intro i u hu _ k hk
      exact h.forget_pc i u hu k hk
  · refine setThr_cases ?_ ?_
    · intro _
      exact h.ranop_early tid t hth (Or.inl hpc)
    · intro i u hu _ hin
      exact h.ranop_early i u hu hin
  · refine setThr_cases ?_ ?_
    · intro _
      exact h.outcome_early tid t hth (Or.inl hpc)
    · intro i u hu _ hin
      exact h.outcome_early i u hu hin
  · refine setThr_cases ?_ ?_
    · intro hfin
      cases hfin
    · intro i u hu hne hfin
      obtain ⟨hro, c, hc, hst⟩ := h.finish_inv i u hu hfin
      have hne' : u.callId ≠ s.nextCall := by
        obtain ⟨k, o, hdo⟩ := prog_isDo h hu
          (by rw [hfin]; intro hx; cases hx)
          (by rw [hfin]; intro hx; cases hx)
        have := h.callId_lt i u hu k o hdo (by rw [hfin]; intro hx; cases hx)
        omega
      exact ⟨hro, c, by rw [putCall_ne _ _ hne']; exact hc, hst⟩
  · exact finish_uniq_of_setThr h.finish_uniq (by intro hc; cases hc)
  · refine setThr_cases ?_ ?_
    · intro out hout
      dsimp only at hout
      rw [h.outcome_early tid t hth (Or.inl hpc)] at hout
      cases hout
    · intro i u hu _ out hout
      obtain ⟨c, hc, hst⟩ := h.outcome_done i u hu out hout
      have hne' : u.callId ≠ s.nextCall := by
        have : (s.calls u.callId).isSome = true := by rw [hc]; rfl
        have := (h.calls_dom u.callId).1 this
        omega
      exact ⟨c, by rw [putCall_ne _ _ hne']; exact hc, hst⟩
  · refine putCall_cases ?_ ?_
    · intro out hout
      cases hout
    · intro x c hc _ out hout
      exact h.done_env x c hc out hout
  · refine putCall_cases ?_ ?_
    · rw [execsFor_append_no_begin hΔnb, execsFor_zero_of_lt h.ev_lt]
      rfl
    · intro x c hc _
      rw [execsFor_append_no_begin hΔnb]
      exact h.execs_status x c hc
  · refine ev_lt_append (ev_lt_mono (Nat.le_succ _) h.ev_lt) ?_
    intro e he cid' hc
    simp only [List.mem_singleton] at he
    subst he
    simp only [Event.cid, Option.some.injEq] at hc
    subst hc
    exact Nat.lt_succ_self _
  · refine setThr_cases ?_ ?_
    · intro hres
      dsimp only at hres
      have := h.result_halted tid t hth hres
      rw [hpc] at this
      cases this
    · intro i u hu _ hres
      exact h.result_halted i u hu hres
  · refine setThr_cases ?_ ?_
    · intro k o _ hhalt
      cases hhalt
    · intro i u hu _ k o hdo hhalt
      exact h.result_spec i u hu k o hdo hhalt
  · refine setThr_cases ?_ ?_
    · rw [thrEvents_own_append _ (h.trace_some tid t hth) hΔtid]
      simp [pcTrace, hpr, hpc]
    · intro i u hu hne
      rw [thrEvents_other_append i (by
        intro e he
        simp only [List.mem_singleton] at he
        subst he
        simpa [Event.tid] using Ne.symm hne)]
      exact h.trace_some i u hu
  · intro i hnone
    have hne : i ≠ tid := by
      rintro rfl
      rw [setThr_self] at hnone
      cases hnone
    rw [setThr_ne s _ hne] at hnone
    rw [thrEvents_other_append i (by
      intro e he
      simp only [List.mem_singleton] at he
      subst he
      simpa [Event.tid] using Ne.symm hne)]
    exact h.trace_none i hnone
  · intro cid
    rw [List.filter_append, List.length_append]
    by_cases hcid : cid = s.nextCall
    · subst hcid
      have hold : (s.events.filter (Event.isStoreOf s.nextCall)).length = 0 := by
        simp only [List.length_eq_zero, List.filter_eq_nil_iff]
        intro e he hstore
        have := h.ev_lt e he s.nextCall (isStoreOf_cid hstore)
        omega
      rw [hold]
      simp [Event.isStoreOf]
    · have hnew : (List.filter (Event.isStoreOf cid)
          [Event.lors tid key s.nextCall false]).length = 0 := by
        simp only [List.length_eq_zero, List.filter_eq_nil_iff]
        intro e he
        simp only [List.mem_singleton] at he
        subst he
        simp [Event.isStoreOf, Ne.symm hcid]
      rw [hnew, Nat.add_zero]
      exact h.store_uniq cid

theorem execsFor_begin_singleton (x tid c : Nat) :
    execsFor (K := K) x [Event.beginRun tid c] = if c = x then 1 else 0 := by
  by_cases h : c = x
  · simp [execsFor, List.filter_singleton, h]
  · simp [execsFor, List.filter_singleton, h]

theorem wf_incr {env : Nat → V × Option E} {s : GState K V E}
    {tid : Nat} {t : Thread K V E} {c : CallSt V E} (h : WF env s)
    (hth : s.threads tid = some t) (hpc : t.pc = .incr)
    (hc : s.calls t.callId = some c) :
    WF env
      { s with
        calls := putCall s.calls t.callId { c with callers := c.callers + 1 }
        threads := setThr s tid { t with pc := .obtain }
        events := s.events ++ [.incr tid t.callId] } := by
  have hnst : t.pc ≠ .start := by rw [hpc]; intro hx; cases hx
  have hnh : t.pc ≠ .halted := by rw [hpc]; intro hx; cases hx
  obtain ⟨ky, o, hpr⟩ := prog_isDo h hth hnst hnh
  have hΔtid : ∀ e ∈ [Event.incr tid t.callId (K := K)],
      Event.tid e = tid := by
    intro e he
    simp only [List.mem_singleton] at he
    subst he; rfl
  have hΔnb : ∀ e ∈ [Event.incr tid t.callId (K := K)],
      Event.isBeginRun e = false := by
    intro e he
    simp only [List.mem_singleton] at he
    subst he; rfl
  have hsome : (s.calls t.callId).isSome = true := by rw [hc]; rfl
  constructor
  all_goals dsimp only
  · intro i hi
    exact (setThr_isSome _ hth i).trans (h.dom_lt i hi)
  · exact setThr_none hth h.dom_ge
  · refine setThr_cases ?_ ?_
    · intro k o' hdo _
      exact h.callId_lt tid t hth k o' hdo hnst
    · intro i u hu _ k o' hdo hne
      exact h.callId_lt i u hu k o' hdo hne
  · intro cid
    rw [putCall_isSome s.calls _ hsome cid]
    exact h.calls_dom cid
  · exact h.reg_lt
  · refine setThr_cases ?_ ?_
    · intro k hk
      dsimp only at hk
      rw [hpr] at hk
      cases hk
    · intro i u hu _ k hk
      exact h.forget_pc i u hu k hk
  · refine setThr_cases ?_ ?_
    · intro _
      exact h.ranop_early tid t hth (Or.inr (Or.inl hpc))
    · intro i u hu _ hin
      exact h.ranop_early i u hu hin
  · refine setThr_cases ?_ ?_
    · intro _
      exact h.outcome_early tid t hth (Or.inr (Or.inl hpc))
    · intro i u hu _ hin
      exact h.outcome_early i u hu hin
  · refine setThr_cases ?_ ?_
    · intro hfin
      cases hfin
    · intro i u hu hne hfin
      obtain ⟨hro, c', hc', hst'⟩ := h.finish_inv i u hu hfin
      by_cases hcid : u.callId = t.callId
      · rw [hcid] at hc' ⊢
        rw [hc] at hc'
        cases hc'
        exact ⟨hro, _, putCall_self _ _ _, hst'⟩
      · exact ⟨hro, c', by rw [putCall_ne _ _ hcid]; exact hc', hst'⟩
  · exact finish_uniq_of_setThr h.finish_uniq (by intro hx; cases hx)
  · refine setThr_cases ?_ ?_
    · intro out hout
      dsimp only at hout
      rw [h.outcome_early tid t hth (Or.inr (Or.inl hpc))] at hout
      cases hout
    · intro i u hu _ out hout
      obtain ⟨c', hc', hst'⟩ := h.outcome_done i u hu out hout
      by_cases hcid : u.callId = t.callId
      · rw [hcid] at hc' ⊢
        rw [hc] at hc'
        cases hc'
        exact ⟨_, putCall_self _ _ _, hst'⟩
      · exact ⟨c', by rw [putCall_ne _ _ hcid]; exact hc', hst'⟩
  · refine putCall_cases ?_ ?_
    · intro out hdone
      dsimp only at hdone
      exact h.done_env t.callId c hc out hdone
    · intro x c' hc' _ out hout
      exact h.done_env x c' hc' out hout
  · refine putCall_cases ?_ ?_
    · rw [execsFor_append_no_begin hΔnb]
      exact h.execs_status t.callId c hc
    · intro x c' hc' _
      rw [execsFor_append_no_begin hΔnb]
      exact h.execs_status x c' hc'
  · refine ev_lt_append h.ev_lt ?_
    intro e he cid' hcid
    simp only [List.mem_singleton] at he
    subst he
    simp only [Event.cid, Option.some.injEq] at hcid
    subst hcid
    exact h.callId_lt tid t hth ky o hpr hnst
  · refine setThr_cases ?_ ?_
    · intro hres
      dsimp only at hres
      have := h.result_halted tid t hth hres
      rw [hpc] at this
      cases this
    · intro i u hu _ hres
      exact h.result_halted i u hu hres
  · refine setThr_cases ?_ ?_
    · intro k o' _ hhalt
      cases hhalt
    · intro i u hu _ k o' hdo hhalt
      exact h.result_spec i u hu k o' hdo hhalt
  · refine setThr_cases ?_ ?_
    · rw [thrEvents_own_append _ (h.trace_some tid t hth) hΔtid]
      simp [pcTrace, hpr, hpc]
    · intro i u hu hne
      rw [thrEvents_other_append i (by
        intro e he
        simp only [List.mem_singleton] at he
        subst he
        simpa [Event.tid] using Ne.symm hne)]
      exact h.trace_some i u hu
  · intro i hnone
    have hne : i ≠ tid := by
      rintro rfl
      rw [setThr_self] at hnone
      cases hnone
    rw [setThr_ne s _ hne] at hnone
    rw [thrEvents_other_append i (by
      intro e he
      simp only [List.mem_singleton] at he
      subst he
      simpa [Event.tid] using Ne.symm hne)]
    exact h.trace_none i hnone
  · refine store_uniq_append h.store_uniq ?_
    intro cid' e he
    simp only [List.mem_singleton] at he
    subst he
    rfl

theorem wf_claim {env : Nat → V × Option E} {s : GState K V E}
    {tid : Nat} {t : Thread K V E} {c : CallSt V E} (h : WF env s)
    (hth : s.threads tid = some t) (hpc : t.pc = .obtain)
    (hc : s.calls t.callId = some c) (hst : c.status = .idle) :
    WF env
      { s with
        calls := putCall s.calls t.callId { c with status := .running }
        threads := setThr s tid { t with pc := .finish, ranOp := true }
        events := s.events ++ [.beginRun tid t.callId] } := by
  have hnst : t.pc ≠ .start := by rw [hpc]; intro hx; cases hx
  have hnh : t.pc ≠ .halted := by rw [hpc]; intro hx; cases hx
  obtain ⟨ky, o, hpr⟩ := prog_isDo h hth hnst hnh
  have hΔtid : ∀ e ∈ [Event.beginRun tid t.callId (K := K)],
      Event.tid e = tid := by
    intro e he
    simp only [List.mem_singleton] at he
    subst he; rfl
  have hsome : (s.calls t.callId).isSome = true := by rw [hc]; rfl
  constructor
  all_goals dsimp only
  · intro i hi
    exact (setThr_isSome _ hth i).trans (h.dom_lt i hi)
  · exact setThr_none hth h.dom_ge
  · refine setThr_cases ?_ ?_
    · intro k o' hdo _
      exact h.callId_lt tid t hth k o' hdo hnst
    · intro i u hu _ k o' hdo hne
      exact h.callId_lt i u hu k o' hdo hne
  · intro cid
    rw [putCall_isSome s.calls _ hsome cid]
    exact h.calls_dom cid
  · exact h.reg_lt
  · refine setThr_cases ?_ ?_
    · intro k hk
      dsimp only at hk
      rw [hpr] at hk
      cases hk
    · intro i u hu _ k hk
      exact h.forget_pc i u hu k hk
  · refine setThr_cases ?_ ?_
    · intro hin
      rcases hin with hx | hx | hx <;> cases hx
    · intro i u hu _ hin
      exact h.ranop_early i u hu hin
  · refine setThr_cases ?_ ?_
    · intro _
      exact h.outcome_early tid t hth (Or.inr (Or.inr (Or.inl hpc)))
    · intro i u hu _ hin
      exact h.outcome_early i u hu hin
  · refine setThr_cases ?_ ?_
    · intro _
      exact ⟨rfl, _, putCall_self _ _ _, rfl⟩
    · intro i u hu hne hfin
      obtain ⟨hro, c', hc', hst'⟩ := h.finish_inv i u hu hfin
      by_cases hcid : u.callId = t.callId
      · rw [hcid, hc] at hc'
        cases hc'
        rw [hst] at hst'
        cases hst'
      · exact ⟨hro, c', by rw [putCall_ne _ _ hcid]; exact hc', hst'⟩
  · intro i j a b ha hb hfa hfb hcab
    by_cases hi : i = tid <;> by_cases hj : j = tid
    · rw [hi, hj]
    · subst hi
      rw [setThr_self] at ha
      cases ha
      rw [setThr_ne s _ hj] at hb
      obtain ⟨_, c', hc', hst'⟩ := h.finish_inv j b hb hfb
      dsimp only at hcab
      rw [← hcab, hc] at hc'
      cases hc'
      rw [hst] at hst'
      cases hst'
    · subst hj
      rw [setThr_self] at hb
      cases hb
      rw [setThr_ne s _ hi] at ha
      obtain ⟨_, c', hc', hst'⟩ := h.finish_inv i a ha hfa
      dsimp only at hcab
      rw [hcab, hc] at hc'
      cases hc'
      rw [hst] at hst'
      cases hst'
    · rw [setThr_ne s _ hi] at ha
      rw [setThr_ne s _ hj] at hb
      exact h.finish_uniq i j a b ha hb hfa hfb hcab
  · refine setThr_cases ?_ ?_
    · intro out hout
      dsimp only at hout
      rw [h.outcome_early tid t hth (Or.inr (Or.inr (Or.inl hpc)))] at hout
      cases hout
    · intro i u hu _ out hout
      obtain ⟨c', hc', hst'⟩ := h.outcome_done i u hu out hout
      by_cases hcid : u.callId = t.callId
      · rw [hcid, hc] at hc'
        cases hc'
        rw [hst] at hst'
        cases hst'
      · exact ⟨c', by rw [putCall_ne _ _ hcid]; exact hc', hst'⟩
  · refine putCall_cases ?_ ?_
    · intro out hdone
      cases hdone
    · intro x c' hc' _ out hout
      exact h.done_env x c' hc' out hout
  · refine putCall_cases ?_ ?_
    · rw [execsFor_append, execsFor_begin_singleton, if_pos rfl,
        h.execs_status t.callId c hc, hst]
      rfl
    · intro x c' hc' hne
      rw [execsFor_append, execsFor_begin_singleton,
        if_neg (by intro hx; exact hne hx.symm), Nat.add_zero]
      exact h.execs_status x c' hc'
  · refine ev_lt_append h.ev_lt ?_
    intro e he cid' hcid
    simp only [List.mem_singleton] at he
    subst he
    simp only [Event.cid, Option.some.injEq] at hcid
    subst hcid
    exact h.callId_lt tid t hth ky o hpr hnst
  · refine setThr_cases ?_ ?_
    · intro hres
      dsimp only at hres
      have := h.result_halted tid t hth hres
      rw [hpc] at this
      cases this
    · intro i u hu _ hres
      exact h.result_halted i u hu hres
  · refine setThr_cases ?_ ?_
    · intro k o' _ hhalt
      cases hhalt
    · intro i u hu _ k o' hdo hhalt
      exact h.result_spec i u hu k o' hdo hhalt
  · refine setThr_cases ?_ ?_
    · rw [thrEvents_own_append _ (h.trace_some tid t hth) hΔtid]
      simp [pcTrace, hpr, hpc]
    · intro i u hu hne
      rw [thrEvents_other_append i (by
        intro e he
        simp only [List.mem_singleton] at he
        subst he
        simpa [Event.tid] using Ne.symm hne)]
      exact h.trace_some i u hu
  · intro i hnone
    have hne : i ≠ tid := by
      rintro rfl
      rw [setThr_self] at hnone
      cases hnone
    rw [setThr_ne s _ hne] at hnone
    rw [thrEvents_other_append i (by
      intro e he
      simp only [List.mem_singleton] at he
      subst he
      simpa [Event.tid] using Ne.symm hne)]
    exact h.trace_none i hnone
  · refine store_uniq_append h.store_uniq ?_
    intro cid' e he
    simp only [List.mem_singleton] at he
    subst he
    rfl

theorem wf_read {env : Nat → V × Option E} {s : GState K V E}
    {tid : Nat} {t : Thread K V E} {c : CallSt V E} {out : V × Option E}
    (h : WF env s) (hth : s.threads tid = some t) (hpc : t.pc = .obtain)
    (hc : s.calls t.callId = some c) (hst : c.status = .done out) :
    WF env
      { s with
        threads := setThr s tid { t with pc := .load, outcome := some out }
        events := s.events ++ [.got tid t.callId] } := by
  have hnst : t.pc ≠ .start := by rw [hpc]; intro hx; cases hx
  have hnh : t.pc ≠ .halted := by rw [hpc]; intro hx; cases hx
  obtain ⟨ky, o, hpr⟩ := prog_isDo h hth hnst hnh
  have hro : t.ranOp = false :=
    h.ranop_early tid t hth (Or.inr (Or.inr hpc))
  have hΔtid : ∀ e ∈ [Event.got tid t.callId (K := K)],
      Event.tid e = tid := by
    intro e he
    simp only [List.mem_singleton] at he
    subst he; rfl
  have hΔnb : ∀ e ∈ [Event.got tid t.callId (K := K)],
      Event.isBeginRun e = false := by
    intro e he
    simp only [List.mem_singleton] at he
    subst he; rfl
  constructor
  all_goals dsimp only
  · intro i hi
    exact (setThr_isSome _ hth i).trans (h.dom_lt i hi)
  · exact setThr_none hth h.dom_ge
  · refine setThr_cases ?_ ?_
    · intro k o' hdo _
      exact h.callId_lt tid t hth k o' hdo hnst
    · intro i u hu _ k o' hdo hne
      exact h.callId_lt i u hu k o' hdo hne
  · exact h.calls_dom
  · exact h.reg_lt
  · refine setThr_cases ?_ ?_
    · intro k hk
      dsimp only at hk
      rw [hpr] at hk
      cases hk
    · intro i u hu _ k hk
      exact h.forget_pc i u hu k hk
  · refine setThr_cases ?_ ?_
    · intro hin
      rcases hin with hx | hx | hx <;> cases hx
    · intro i u hu _ hin
      exact h.ranop_early i u hu hin
  · refine setThr_cases ?_ ?_
    · intro hin
      rcases hin with hx | hx | hx | hx <;> cases hx
    · intro i u hu _ hin
      exact h.outcome_early i u hu hin
  · refine setThr_cases ?_ ?_
    · intro hfin
      cases hfin
    · intro i u hu _ hfin
      exact h.finish_inv i u hu hfin
  · exact finish_uniq_of_setThr h.finish_uniq (by intro hx; cases hx)
  · refine setThr_cases ?_ ?_
    · intro out' hout
      dsimp only at hout
      cases hout
      exact ⟨c, hc, hst⟩
    · intro i u hu _ out' hout
      exact h.outcome_done i u hu out' hout
  · exact h.done_env
  · intro cid' c' hc'
    rw [execsFor_append_no_begin hΔnb]
    exact h.execs_status cid' c' hc'
  · refine ev_lt_append h.ev_lt ?_
    intro e he cid' hcid
    simp only [List.mem_singleton] at he
    subst he
    simp only [Event.cid, Option.some.injEq] at hcid
    subst hcid
    exact h.callId_lt tid t hth ky o hpr hnst
  · refine setThr_cases ?_ ?_
    · intro hres
      dsimp only at hres
      have := h.result_halted tid t hth hres
      rw [hpc] at this
      cases this
    · intro i u hu _ hres
      exact h.result_halted i u hu hres
  · refine setThr_cases ?_ ?_
    · intro k o' _ hhalt
      cases hhalt
    · intro i u hu _ k o' hdo hhalt
      exact h.result_spec i u hu k o' hdo hhalt
  · refine setThr_cases ?_ ?_
    · rw [thrEvents_own_append _ (h.trace_some tid t hth) hΔtid]
      simp [pcTrace, hpr, hpc, hro]
    · intro i u hu hne
      rw [thrEvents_other_append i (by
        intro e he
        simp only [List.mem_singleton] at he
        subst he
        simpa [Event.tid] using Ne.symm hne)]
      exact h.trace_some i u hu
  · intro i hnone
    have hne : i ≠ tid := by
      rintro rfl
      rw [setThr_self] at hnone
      cases hnone
    rw [setThr_ne s _ hne] at hnone
    rw [thrEvents_other_append i (by
      intro e he
      simp only [List.mem_singleton] at he
      subst he
      simpa [Event.tid] using Ne.symm hne)]
    exact h.trace_none i hnone
  · refine store_uniq_append h.store_uniq ?_
    intro cid' e he
    simp only [List.mem_singleton] at he
    subst he
    rfl

theorem wf_finish {env : Nat → V × Option E} {s : GState K V E}
    {tid : Nat} {t : Thread K V E} {c : CallSt V E} (h : WF env s)
    (hth : s.threads tid = some t) (hpc : t.pc = .finish)
    (hc : s.calls t.callId = some c) :
    WF env
      { s with
        calls := putCall s.calls t.callId
          { c with status := .done (env c.opId) }
        threads := setThr s tid
          { t with pc := .load, outcome := some (env c.opId) }
        events := s.events ++ [.endRun tid t.callId, .got tid t.callId] } := by
  have hnst : t.pc ≠ .start := by rw [hpc]; intro hx; cases hx
  have hnh : t.pc ≠ .halted := by rw [hpc]; intro hx; cases hx
  obtain ⟨ky, o, hpr⟩ := prog_isDo h hth hnst hnh
  obtain ⟨hro, c0, hc0, hrun⟩ := h.finish_inv tid t hth hpc
  rw [hc] at hc0
  cases hc0
  have hΔtid : ∀ e ∈ [Event.endRun tid t.callId (K := K),
      Event.got tid t.callId], Event.tid e = tid := by
    intro e he
    rcases List.mem_cons.1 he with hx | hx
    · subst hx; rfl
    · simp only [List.mem_singleton] at hx
      subst hx; rfl
  have hΔnb : ∀ e ∈ [Event.endRun tid t.callId (K := K),
      Event.got tid t.callId], Event.isBeginRun e = false := by
    intro e he
    rcases List.mem_cons.1 he with hx | hx
    · subst hx; rfl
    · simp only [List.mem_singleton] at hx
      subst hx; rfl
  have hsome : (s.calls t.callId).isSome = true := by rw [hc]; rfl
  constructor
  all_goals dsimp only
  · intro i hi
    exact (setThr_isSome _ hth i).trans (h.dom_lt i hi)
  · exact setThr_none hth h.dom_ge
  · refine setThr_cases ?_ ?_
    · intro k o' hdo _
      exact h.callId_lt tid t hth k o' hdo hnst
    · intro i u hu _ k o' hdo hne
      exact h.callId_lt i u hu k o' hdo hne
  · intro cid
    rw [putCall_isSome s.calls _ hsome cid]
    exact h.calls_dom cid
  · exact h.reg_lt
  · refine setThr_cases ?_ ?_
    · intro k hk
      dsimp only at hk
      rw [hpr] at hk
      cases hk
    · intro i u hu _ k hk
      exact h.forget_pc i u hu k hk
  · refine setThr_cases ?_ ?_
    · intro hin
      rcases hin with hx | hx | hx <;> cases hx
    · intro i u hu _ hin
      exact h.ranop_early i u hu hin
  · refine setThr_cases ?_ ?_
    · intro hin
      rcases hin with hx | hx | hx | hx <;> cases hx
    · intro i u hu _ hin
      exact h.outcome_early i u hu hin
  · refine setThr_cases ?_ ?_
    · intro hfin
      cases hfin
    · intro i u hu hne hfin
      obtain ⟨hro', c', hc', hst'⟩ := h.finish_inv i u hu hfin
      by_cases hcid : u.callId = t.callId
      · exact absurd (h.finish_uniq i tid u t hu hth hfin hpc hcid) hne
      · exact ⟨hro', c', by rw [putCall_ne _ _ hcid]; exact hc', hst'⟩
  · exact finish_uniq_of_setThr h.finish_uniq (by intro hx; cases hx)
  · refine setThr_cases ?_ ?_
    · intro out hout
      dsimp only at hout
      cases hout
      exact ⟨_, putCall_self _ _ _, rfl⟩
    · intro i u hu hne out hout
      obtain ⟨c', hc', hst'⟩ := h.outcome_done i u hu out hout
      by_cases hcid : u.callId = t.callId
      · rw [hcid, hc] at hc'
        cases hc'
        rw [hrun] at hst'
        cases hst'
      · exact ⟨c', by rw [putCall_ne _ _ hcid]; exact hc', hst'⟩
  · refine putCall_cases ?_ ?_
    · intro out hdone
      dsimp only at hdone
      cases hdone
      rfl
    · intro x c' hc' _ out hout
      exact h.done_env x c' hc' out hout
  · refine putCall_cases ?_ ?_
    · rw [execsFor_append_no_begin hΔnb,
        h.execs_status t.callId c hc, hrun]
      rfl
    · intro x c' hc' _
      rw [execsFor_append_no_begin hΔnb]
      exact h.execs_status x c' hc'
  · refine ev_lt_append h.ev_lt ?_
    intro e he cid' hcid
    rcases List.mem_cons.1 he with hx | hx
    · subst hx
      simp only [Event.cid, Option.some.injEq] at hcid
      subst hcid
      exact h.callId_lt tid t hth ky o hpr hnst
    · simp only [List.mem_singleton] at hx
      subst hx
      simp only [Event.cid, Option.some.injEq] at hcid
      subst hcid
      exact h.callId_lt tid t hth ky o hpr hnst
  · refine setThr_cases ?_ ?_
    · intro hres
      dsimp only at hres
      have := h.result_halted tid t hth hres
      rw [hpc] at this
      cases this
    · intro i u hu _ hres
      exact h.result_halted i u hu hres
  · refine setThr_cases ?_ ?_
    · intro k o' _ hhalt
      cases hhalt
    · intro i u hu _ k o' hdo hhalt
      exact h.result_spec i u hu k o' hdo hhalt
  · refine setThr_cases ?_ ?_
    · rw [thrEvents_own_append _ (h.trace_some tid t hth) hΔtid]
      simp [pcTrace, hpr, hpc, hro]
    · intro i u hu hne
      rw [thrEvents_other_append i (by
        intro e he
        rcases List.mem_cons.1 he with hx | hx
        · subst hx
          simpa [Event.tid] using Ne.symm hne
        · simp only [List.mem_singleton] at hx
          subst hx
          simpa [Event.tid] using Ne.symm hne)]
      exact h.trace_some i u hu
  · intro i hnone
    have hne : i ≠ tid := by
      rintro rfl
      rw [setThr_self] at hnone
      cases hnone
    rw [setThr_ne s _ hne] at hnone
    rw [thrEvents_other_append i (by
      intro e he
      rcases List.mem_cons.1 he with hx | hx
      · subst hx
        simpa [Event.tid] using Ne.symm hne
      · simp only [List.mem_singleton] at hx
        subst hx
        simpa [Event.tid] using Ne.symm hne)]
    exact h.trace_none i hnone
  · refine store_uniq_append h.store_uniq ?_
    intro cid' e he
    rcases List.mem_cons.1 he with hx | hx
    · subst hx; rfl
    · simp only [List.mem_singleton] at hx
      subst hx; rfl

theorem wf_load {env : Nat → V × Option E} {s : GState K V E}
    {tid : Nat} {t : Thread K V E} {c : CallSt V E} (h : WF env s)
    (hth : s.threads tid = some t) (hpc : t.pc = .load)
    (hc : s.calls t.callId = some c) :
    WF env
      { s with
        threads := setThr s tid { t with pc := .decr, count := c.callers }
        events := s.events ++ [.loadCnt tid t.callId c.callers] } := by
  have hnst : t.pc ≠ .start := by rw [hpc]; intro hx; cases hx
  have hnh : t.pc ≠ .halted := by rw [hpc]; intro hx; cases hx
  obtain ⟨ky, o, hpr⟩ := prog_isDo h hth hnst hnh
  have hΔtid : ∀ e ∈ [Event.loadCnt tid t.callId c.callers (K := K)],
      Event.tid e = tid := by
    intro e he
    simp only [List.mem_singleton] at he
    subst he; rfl
  have hΔnb : ∀ e ∈ [Event.loadCnt tid t.callId c.callers (K := K)],
      Event.isBeginRun e = false := by
    intro e he
    simp only [List.mem_singleton] at he
    subst he; rfl
  constructor
  all_goals dsimp only
  · intro i hi
    exact (setThr_isSome _ hth i).trans (h.dom_lt i hi)
  · exact setThr_none hth h.dom_ge
  · refine setThr_cases ?_ ?_
    · intro k o' hdo _
      exact h.callId_lt tid t hth k o' hdo hnst
    · intro i u hu _ k o' hdo hne
      exact h.callId_lt i u hu k o' hdo hne
  · exact h.calls_dom
  · exact h.reg_lt
  · refine setThr_cases ?_ ?_
    · intro k hk
      dsimp only at hk
      rw [hpr] at hk
      cases hk
    · intro i u hu _ k hk
      exact h.forget_pc i u hu k hk
  · refine setThr_cases ?_ ?_
    · intro hin
      rcases hin with hx | hx | hx <;> cases hx
    · intro i u hu _ hin
      exact h.ranop_early i u hu hin
  · refine setThr_cases ?_ ?_
    · intro hin
      rcases hin with hx | hx | hx | hx <;> cases hx
    · intro i u hu _ hin
      exact h.outcome_early i u hu hin
  · refine setThr_cases ?_ ?_
    · intro hfin
      cases hfin
    · intro i u hu _ hfin
      exact h.finish_inv i u hu hfin
  · exact finish_uniq_of_setThr h.finish_uniq (by intro hx; cases hx)
  · refine setThr_cases ?_ ?_
    · intro out hout
      dsimp only at hout
      exact h.outcome_done tid t hth out hout
    · intro i u hu _ out hout
      exact h.outcome_done i u hu out hout
  · exact h.done_env
  · intro cid' c' hc'
    rw [execsFor_append_no_begin hΔnb]
    exact h.execs_status cid' c' hc'
  · refine ev_lt_append h.ev_lt ?_
    intro e he cid' hcid
    simp only [List.mem_singleton] at he
    subst he
    simp only [Event.cid, Option.some.injEq] at hcid
    subst hcid
    exact h.callId_lt tid t hth ky o hpr hnst
  · refine setThr_cases ?_ ?_
    · intro hres
      dsimp only at hres
      have := h.result_halted tid t hth hres
      rw [hpc] at this
      cases this
    · intro i u hu _ hres
      exact h.result_halted i u hu hres
  · refine setThr_cases ?_ ?_
    · intro k o' _ hhalt
      cases hhalt
    · intro i u hu _ k o' hdo hhalt
      exact h.result_spec i u hu k o' hdo hhalt
  · refine setThr_cases ?_ ?_
    · rw [thrEvents_own_append _ (h.trace_some tid t hth) hΔtid]
      simp [pcTrace, hpr, hpc]
    · intro i u hu hne
      rw [thrEvents_other_append i (by
        intro e he
        simp only [List.mem_singleton] at he
        subst he
        simpa [Event.tid] using Ne.symm hne)]
      exact h.trace_some i u hu
  · intro i hnone
    have hne : i ≠ tid := by
      rintro rfl
      rw [setThr_self] at hnone
      cases hnone
    rw [setThr_ne s _ hne] at hnone
    rw [thrEvents_other_append i (by
      intro e he
      simp only [List.mem_singleton] at he
      subst he
      simpa [Event.tid] using Ne.symm hne)]
    exact h.trace_none i hnone
  · refine store_uniq_append h.store_uniq ?_
    intro cid' e he
    simp only [List.mem_singleton] at he
    subst he
    rfl

theorem wf_decr {env : Nat → V × Option E} {s : GState K V E}
    {tid : Nat} {t : Thread K V E} {c : CallSt V E} (h : WF env s)
    (hth : s.threads tid = some t) (hpc : t.pc = .decr)
    (hc : s.calls t.callId = some c) :
    WF env
      { s with
        calls := putCall s.calls t.callId { c with callers := c.callers - 1 }
        threads := setThr s tid { t with pc := .cleanup }
        events := s.events ++ [.decrEv tid t.callId] } := by
  have hnst : t.pc ≠ .start := by rw [hpc]; intro hx; cases hx
  have hnh : t.pc ≠ .halted := by rw [hpc]; intro hx; cases hx
  obtain ⟨ky, o, hpr⟩ := prog_isDo h hth hnst hnh
  have hΔtid : ∀ e ∈ [Event.decrEv tid t.callId (K := K)],
      Event.tid e = tid := by
    intro e he
    simp only [List.mem_singleton] at he
    subst he; rfl
  have hΔnb : ∀ e ∈ [Event.decrEv tid t.callId (K := K)],
      Event.isBeginRun e = false := by
    intro e he
    simp only [List.mem_singleton] at he
    subst he; rfl
  have hsome : (s.calls t.callId).isSome = true := by rw [hc]; rfl
  constructor
  all_goals dsimp only
  · intro i hi
    exact (setThr_isSome _ hth i).trans (h.dom_lt i hi)
  · exact setThr_none hth h.dom_ge
  · refine setThr_cases ?_ ?_
    · intro k o' hdo _
      exact h.callId_lt tid t hth k o' hdo hnst
    · intro i u hu _ k o' hdo hne
      exact h.callId_lt i u hu k o' hdo hne
  · intro cid
    rw [putCall_isSome s.calls _ hsome cid]
    exact h.calls_dom cid
  · exact h.reg_lt
  · refine setThr_cases ?_ ?_
    · intro k hk
      dsimp only at hk
      rw [hpr] at hk
      cases hk
    · intro i u hu _ k hk
      exact h.forget_pc i u hu k hk
  · refine setThr_cases ?_ ?_
    · intro hin
      rcases hin with hx | hx | hx <;> cases hx
    · intro i u hu _ hin
      exact h.ranop_early i u hu hin
  · refine setThr_cases ?_ ?_
    · intro hin
      rcases hin with hx | hx | hx | hx <;> cases hx
    · intro i u hu _ hin
      exact h.outcome_early i u hu hin
  · refine setThr_cases ?_ ?_
    · intro hfin
      cases hfin
    · intro i u hu hne hfin
      obtain ⟨hro, c', hc', hst'⟩ := h.finish_inv i u hu hfin
      by_cases hcid : u.callId = t.callId
      · rw [hcid] at hc' ⊢
        rw [hc] at hc'
        cases hc'
        exact ⟨hro, _, putCall_self _ _ _, hst'⟩
      · exact ⟨hro, c', by rw [putCall_ne _ _ hcid]; exact hc', hst'⟩
  · exact finish_uniq_of_setThr h.finish_uniq (by intro hx; cases hx)
  · refine setThr_cases ?_ ?_
    · intro out hout
      dsimp only at hout
      obtain ⟨c', hc', hst'⟩ := h.outcome_done tid t hth out hout
      by_cases hcid : t.callId = t.callId
      · rw [hc] at hc'
        cases hc'
        exact ⟨_, putCall_self _ _ _, hst'⟩
      · exact absurd rfl hcid
    · intro i u hu _ out hout
      obtain ⟨c', hc', hst'⟩ := h.outcome_done i u hu out hout
      by_cases hcid : u.callId = t.callId
      · rw [hcid] at hc' ⊢
        rw [hc] at hc'
        cases hc'
        exact ⟨_, putCall_self _ _ _, hst'⟩
      · exact ⟨c', by rw [putCall_ne _ _ hcid]; exact hc', hst'⟩
  · refine putCall_cases ?_ ?_
    · intro out hdone
      dsimp only at hdone
      exact h.done_env t.callId c hc out hdone
    · intro x c' hc' _ out hout
      exact h.done_env x c' hc' out hout
  · refine putCall_cases ?_ ?_
    · rw [execsFor_append_no_begin hΔnb]
      exact h.execs_status t.callId c hc
    · intro x c' hc' _
      rw [execsFor_append_no_begin hΔnb]
      exact h.execs_status x c' hc'
  · refine ev_lt_append h.ev_lt ?_
    intro e he cid' hcid
    simp only [List.mem_singleton] at he
    subst he
    simp only [Event.cid, Option.some.injEq] at hcid
    subst hcid
    exact h.callId_lt tid t hth ky o hpr hnst
  · refine setThr_cases ?_ ?_
    · intro hres
      dsimp only at hres
      have := h.result_halted tid t hth hres
      rw [hpc] at this
      cases this
    · intro i u hu _ hres
      exact h.result_halted i u hu hres
  · refine setThr_cases ?_ ?_
    · intro k o' _ hhalt
      cases hhalt
    · intro i u hu _ k o' hdo hhalt
      exact h.result_spec i u hu k o' hdo hhalt
  · refine setThr_cases ?_ ?_
    · rw [thrEvents_own_append _ (h.trace_some tid t hth) hΔtid]
      simp [pcTrace, hpr, hpc]
    · intro i u hu hne
      rw [thrEvents_other_append i (by
        intro e he
        simp only [List.mem_singleton] at he
        subst he
        simpa [Event.tid] using Ne.symm hne)]
      exact h.trace_some i u hu
  · intro i hnone
    have hne : i ≠ tid := by
      rintro rfl
      rw [setThr_self] at hnone
      cases hnone
    rw [setThr_ne s _ hne] at hnone
    rw [thrEvents_other_append i (by
      intro e he
      simp only [List.mem_singleton] at he
      subst he
      simpa [Event.tid] using Ne.symm hne)]
    exact h.trace_none i hnone
  · refine store_uniq_append h.store_uniq ?_
    intro cid' e he
    simp only [List.mem_singleton] at he
    subst he
    rfl

theorem wf_haltLoaded {env : Nat → V × Option E} {s : GState K V E}
    {tid : Nat} {t : Thread K V E} {out : V × Option E} (h : WF env s)
    (hth : s.threads tid = some t) (hpc : t.pc = .cleanup)
    (hout : t.outcome = some out) (hld : t.loaded = true) :
    WF env
      { s with
        threads := setThr s tid
          { t with
            pc := .halted
            result := some (out.1, t.loaded || decide (1 < t.count),
              out.2) } } := by
  have hnst : t.pc ≠ .start := by rw [hpc]; intro hx; cases hx
  have hnh : t.pc ≠ .halted := by rw [hpc]; intro hx; cases hx
  obtain ⟨ky, o, hpr⟩ := prog_isDo h hth hnst hnh
  constructor
  all_goals dsimp only
  · intro i hi
    exact (setThr_isSome _ hth i).trans (h.dom_lt i hi)
  · exact setThr_none hth h.dom_ge
  · refine setThr_cases ?_ ?_
    · intro k o' hdo _
      exact h.callId_lt tid t hth k o' hdo hnst
    · intro i u hu _ k o' hdo hne
      exact h.callId_lt i u hu k o' hdo hne
  · exact h.calls_dom
  · exact h.reg_lt
  · refine setThr_cases ?_ ?_
    · intro k hk
      dsimp only at hk
      rw [hpr] at hk
      cases hk
    · intro i u hu _ k hk
      exact h.forget_pc i u hu k hk
  · refine setThr_cases ?_ ?_
    · intro hin
      rcases hin with hx | hx | hx <;> cases hx
    · intro i u hu _ hin
      exact h.ranop_early i u hu hin
  · refine setThr_cases ?_ ?_
    · intro hin
      rcases hin with hx | hx | hx | hx <;> cases hx
    · intro i u hu _ hin
      exact h.outcome_early i u hu hin
  · refine setThr_cases ?_ ?_
    · intro hfin
      cases hfin
    · intro i u hu _ hfin
      exact h.finish_inv i u hu hfin
  · exact finish_uniq_of_setThr h.finish_uniq (by intro hx; cases hx)
  · refine setThr_cases ?_ ?_
    · intro out' hout'
      dsimp only at hout'
      exact h.outcome_done tid t hth out' hout'
    · intro i u hu _ out' hout'
      exact h.outcome_done i u hu out' hout'
  · exact h.done_env
  · exact h.execs_status
  · exact h.ev_lt
  · refine setThr_cases ?_ ?_
    · intro _
      rfl
    · intro i u hu _ hres
      exact h.result_halted i u hu hres
  · refine setThr_cases ?_ ?_
    · intro k o' _ _
      exact ⟨out, hout, rfl⟩
    · intro i u hu _ k o' hdo hhalt
      exact h.result_spec i u hu k o' hdo hhalt
  · refine setThr_cases ?_ ?_
    · rw [h.trace_some tid t hth]
      simp [pcTrace, hpr, hpc, hld]
    · intro i u hu _
      exact h.trace_some i u hu
  · intro i hnone
    have hne : i ≠ tid := by
      rintro rfl
      rw [setThr_self] at hnone
      cases hnone
    rw [setThr_ne s _ hne] at hnone
    exact h.trace_none i hnone
  · exact h.store_uniq

theorem wf_haltCadTrue {env : Nat → V × Option E} {s : GState K V E}
    {tid : Nat} {t : Thread K V E} {out : V × Option E} (h : WF env s)
    (hth : s.threads tid = some t) (hpc : t.pc = .cleanup)
    (hout : t.outcome = some out) (hld : t.loaded = false)
    (hreg : s.registry t.prog.key = some t.callId) :
    WF env
      { s with
        registry := delKey s.registry t.prog.key
        threads := setThr s tid
          { t with
            pc := .halted
            result := some (out.1, t.loaded || decide (1 < t.count), out.2)
            cadOk := true }
        events := s.events ++ [.cad tid t.prog.key t.callId true] } := by
  have hnst : t.pc ≠ .start := by rw [hpc]; intro hx; cases hx
  have hnh : t.pc ≠ .halted := by rw [hpc]; intro hx; cases hx
  obtain ⟨ky, o, hpr⟩ := prog_isDo h hth hnst hnh
  have hΔtid : ∀ e ∈ [Event.cad tid t.prog.key t.callId true],
      Event.tid e = tid := by
    intro e he
    simp only [List.mem_singleton] at he
    subst he; rfl
  have hΔnb : ∀ e ∈ [Event.cad tid t.prog.key t.callId true],
      Event.isBeginRun e = false := by
    intro e he
    simp only [List.mem_singleton] at he
    subst he; rfl
  constructor
  all_goals dsimp only
  · intro i hi
    exact (setThr_isSome _ hth i).trans (h.dom_lt i hi)
  · exact setThr_none hth h.dom_ge
  · refine setThr_cases ?_ ?_
    · intro k o' hdo _
      exact h.callId_lt tid t hth k o' hdo hnst
    · intro i u hu _ k o' hdo hne
      exact h.callId_lt i u hu k o' hdo hne
  · exact h.calls_dom
  · intro k cid hk
    by_cases hkey : k = t.prog.key
    · subst hkey
      rw [delKey_self] at hk
      cases hk
    · rw [delKey_ne _ hkey] at hk
      exact h.reg_lt k cid hk
  · refine setThr_cases ?_ ?_
    · intro k hk
      dsimp only at hk
      rw [hpr] at hk
      cases hk
    · intro i u hu _ k hk
      exact h.forget_pc i u hu k hk
  · refine setThr_cases ?_ ?_
    · intro hin
      rcases hin with hx | hx | hx <;> cases hx
    · intro i u hu _ hin
      exact h.ranop_early i u hu hin
  · refine setThr_cases ?_ ?_
    · intro hin
      rcases hin with hx | hx | hx | hx <;> cases hx
    · intro i u hu _ hin
      exact h.outcome_early i u hu hin
  · refine setThr_cases ?_ ?_
    · intro hfin
      cases hfin
    · intro i u hu _ hfin
      exact h.finish_inv i u hu hfin
  · exact finish_uniq_of_setThr h.finish_uniq (by intro hx; cases hx)
  · refine setThr_cases ?_ ?_
    · intro out' hout'
      dsimp only at hout'
      exact h.outcome_done tid t hth out' hout'
    · intro i u hu _ out' hout'
      exact h.outcome_done i u hu out' hout'
  · exact h.done_env
  · intro cid' c' hc'
    rw [execsFor_append_no_begin hΔnb]
    exact h.execs_status cid' c' hc'
  · refine ev_lt_append h.ev_lt ?_
    intro e he cid' hcid
    simp only [List.mem_singleton] at he
    subst he
    simp only [Event.cid, Option.some.injEq] at hcid
    subst hcid
    exact h.callId_lt tid t hth ky o hpr hnst
  · refine setThr_cases ?_ ?_
    · intro _
      rfl
    · intro i u hu _ hres
      exact h.result_halted i u hu hres
  · refine setThr_cases ?_ ?_
    · intro k o' _ _
      exact ⟨out, hout, rfl⟩
    · intro i u hu _ k o' hdo hhalt
      exact h.result_spec i u hu k o' hdo hhalt
  · refine setThr_cases ?_ ?_
    · rw [thrEvents_own_append _ (h.trace_some tid t hth) hΔtid]
      simp [pcTrace, hpr, hpc, hld, Prog.key]
    · intro i u hu hne
      rw [thrEvents_other_append i (by
        intro e he
        simp only [List.mem_singleton] at he
        subst he
        simpa [Event.tid] using Ne.symm hne)]
      exact h.trace_some i u hu
  · intro i hnone
    have hne : i ≠ tid := by
      rintro rfl
      rw [setThr_self] at hnone
      cases hnone
    rw [setThr_ne s _ hne] at hnone
    rw [thrEvents_other_append i (by
      intro e he
      simp only [List.mem_singleton] at he
      subst he
      simpa [Event.tid] using Ne.symm hne)]
    exact h.trace_none i hnone
  · refine store_uniq_append h.store_uniq ?_
    intro cid' e he
    simp only [List.mem_singleton] at he
    subst he
    rfl

theorem wf_haltCadFalse {env : Nat → V × Option E} {s : GState K V E}
    {tid : Nat} {t : Thread K V E} {out : V × Option E} (h : WF env s)
    (hth : s.threads tid = some t) (hpc : t.pc = .cleanup)
    (hout : t.outcome = some out) (hld : t.loaded = false) :
    WF env
      { s with
        threads := setThr s tid
          { t with
            pc := .halted
            result := some (out.1, t.loaded || decide (1 < t.count), out.2)
            cadOk := false }
        events := s.events ++ [.cad tid t.prog.key t.callId false] } := by
  have hnst : t.pc ≠ .start := by rw [hpc]; intro hx; cases hx
  have hnh : t.pc ≠ .halted := by rw [hpc]; intro hx; cases hx
  obtain ⟨ky, o, hpr⟩ := prog_isDo h hth hnst hnh
  have hΔtid : ∀ e ∈ [Event.cad tid t.prog.key t.callId false],
      Event.tid e = tid := by
    intro e he
    simp only [List.mem_singleton] at he
    subst he; rfl
  have hΔnb : ∀ e ∈ [Event.cad tid t.prog.key t.callId false],
      Event.isBeginRun e = false := by
    intro e he
    simp only [List.mem_singleton] at he
    subst he; rfl
  constructor
  all_goals dsimp only
  · intro i hi
    exact (setThr_isSome _ hth i).trans (h.dom_lt i hi)
  · exact setThr_none hth h.dom_ge
  · refine setThr_cases ?_ ?_
    · intro k o' hdo _
      exact h.callId_lt tid t hth k o' hdo hnst
    · intro i u hu _ k o' hdo hne
      exact h.callId_lt i u hu k o' hdo hne
  · exact h.calls_dom
  · exact h.reg_lt
  · refine setThr_cases ?_ ?_
    · intro k hk
      dsimp only at hk
      rw [hpr] at hk
      cases hk
    · intro i u hu _ k hk
      exact h.forget_pc i u hu k hk
  · refine setThr_cases ?_ ?_
    · intro hin
      rcases hin with hx | hx | hx <;> cases hx
    · intro i u hu _ hin
      exact h.ranop_early i u hu hin
  · refine setThr_cases ?_ ?_
    · intro hin
      rcases hin with hx | hx | hx | hx <;> cases hx
    · intro i u hu _ hin
      exact h.outcome_early i u hu hin
  · refine setThr_cases ?_ ?_
    · intro hfin
      cases hfin
    · intro i u hu _ hfin
      exact h.finish_inv i u hu hfin
  · exact finish_uniq_of_setThr h.finish_uniq (by intro hx; cases hx)
  · refine setThr_cases ?_ ?_
    · intro out' hout'
      dsimp only at hout'
      exact h.outcome_done tid t hth out' hout'
    · intro i u hu _ out' hout'
      exact h.outcome_done i u hu out' hout'
  · exact h.done_env
  · intro cid' c' hc'
    rw [execsFor_append_no_begin hΔnb]
    exact h.execs_status cid' c' hc'
  · refine ev_lt_append h.ev_lt ?_
    intro e he cid' hcid
    simp only [List.mem_singleton] at he
    subst he
    simp only [Event.cid, Option.some.injEq] at hcid
    subst hcid
    exact h.callId_lt tid t hth ky o hpr hnst
  · refine setThr_cases ?_ ?_
    · intro _
      rfl
    · intro i u hu _ hres
      exact h.result_halted i u hu hres
  · refine setThr_cases ?_ ?_
    · intro k o' _ _
      exact ⟨out, hout, rfl⟩
    · intro i u hu _ k o' hdo hhalt
      exact h.result_spec i u hu k o' hdo hhalt
  · refine setThr_cases ?_ ?_
    · rw [thrEvents_own_append _ (h.trace_some tid t hth) hΔtid]
      simp [pcTrace, hpr, hpc, hld, Prog.key]
    · intro i u hu hne
      rw [thrEvents_other_append i (by
        intro e he
        simp only [List.mem_singleton] at he
        subst he
        simpa [Event.tid] using Ne.symm hne)]
      exact h.trace_some i u hu
  · intro i hnone
    have hne : i ≠ tid := by
      rintro rfl
      rw [setThr_self] at hnone
      cases hnone
    rw [setThr_ne s _ hne] at hnone
    rw [thrEvents_other_append i (by
      intro e he
      simp only [List.mem_singleton] at he
      subst he
      simpa [Event.tid] using Ne.symm hne)]
    exact h.trace_none i hnone
  · refine store_uniq_append h.store_uniq ?_
    intro cid' e he
    simp only [List.mem_singleton] at he
    subst he
    rfl

/-- The invariant is preserved by every step. -/
theorem wf_step {env : Nat → V × Option E} {s : GState K V E}
    (h : WF env s) (tid : Nat) : WF env (step env s tid) := by
  have hs := step_shape env s tid
  revert hs
  generalize step env s tid = s'
  intro hs
  rcases hs with _ | ⟨t, key, hth, hpc, hpr⟩
    | ⟨t, key, op, cid, hth, hpc, hpr, hreg⟩
    | ⟨t, key, op, hth, hpc, hpr, hreg⟩
    | ⟨t, c, hth, hpc, hc⟩
    | ⟨t, c, hth, hpc, hc, hst⟩
    | ⟨t, c, out, hth, hpc, hc, hst⟩
    | ⟨t, c, hth, hpc, hc⟩
    | ⟨t, c, hth, hpc, hc⟩
    | ⟨t, c, hth, hpc, hc⟩
    | ⟨t, out, hth, hpc, hout, hld⟩
    | ⟨t, out, hth, hpc, hout, hld, hreg⟩
    | ⟨t, out, hth, hpc, hout, hld, hreg⟩
  · exact h
  · exact wf_forget h hth hpc hpr
  · exact wf_join h hth hpc hpr hreg
  · exact wf_store h hth hpc hpr hreg
  · exact wf_incr h hth hpc hc
  · exact wf_claim h hth hpc hc hst
  · exact wf_read h hth hpc hc hst
  · exact wf_finish h hth hpc hc
  · exact wf_load h hth hpc hc
  · exact wf_decr h hth hpc hc
  · exact wf_haltLoaded h hth hpc hout hld
  · exact wf_haltCadTrue h hth hpc hout hld hreg
  · exact wf_haltCadFalse h hth hpc hout hld

/-- The invariant holds in every state reachable from a well-formed one. -/
theorem wf_run {env : Nat → V × Option E} {s : GState K V E}
    (h : WF env s) (σ : List Nat) : WF env (run env s σ) := by
  induction σ generalizing s with
  | nil => exact h
  | cons tid σ ih => exact ih (wf_step h tid)

/-! ### Facts about completed `Do` invocations -/

/-- Any completed `Do` thread returned the triple
`(out.1, loaded || callers > 1, out.2)` built from the memoized outcome of
its `call`, which is exactly the environment's answer for the `call`'s
function. -/
theorem halted_thread_result {env : Nat → V × Option E}
    {s : GState K V E} (h : WF env s) {tid : Nat} {t : Thread K V E}
    {k : K} {o : Nat} (hth : s.threads tid = some t)
    (hdo : t.prog = .doCall k o) (hhalt : t.pc = .halted) :
    ∃ out c, t.outcome = some out ∧ s.calls t.callId = some c ∧
      c.status = .done out ∧ out = env c.opId ∧
      t.result = some (out.1, t.loaded || decide (1 < t.count), out.2) := by
  obtain ⟨out, hout, hres⟩ := h.result_spec tid t hth k o hdo hhalt
  obtain ⟨c, hc, hst⟩ := h.outcome_done tid t hth out hout
  exact ⟨out, c, hout, hc, hst, h.done_env _ c hc out hst, hres⟩

/-- Claim C2: for every completed `Do` call, the returned shared flag
equals `loaded OR (callers-read-at-completion > 1)`: `loaded` records that
the `LoadOrStore` attached to an already-registered execution, and the
count compared with 1 is exactly the value this caller's `callers.Load()`
read when its wait completed (witnessed by its `loadCnt` event). -/
theorem shared_flag_spec (env : Nat → V × Option E)
    (progs : List (Prog K)) (σ : List Nat) (tid : Nat) (key : K) (op : Nat)
    (r : V × Bool × Option E) (s : GState K V E)
    (hs : s = run env (mkState progs) σ)
    (hpr : progOf s tid = some (.doCall key op))
    (hres : resultOf s tid = some r) :
    r.2.1 = (loadedOf s tid || decide (1 < countOf s tid)) ∧
    Event.loadCnt tid (callIdOf s tid) (countOf s tid) ∈ s.events ∧
    (loadedOf s tid = true ↔
      Event.lors tid key (callIdOf s tid) true ∈ s.events) := by
  have h : WF env s := hs ▸ wf_run (wf_init env progs) σ
  cases hth : s.threads tid with
  | none => rw [resultOf, hth] at hres; cases hres
  | some t =>
    rw [progOf, hth] at hpr
    rw [resultOf, hth] at hres
    simp only [Option.map_some', Option.some.injEq] at hpr
    simp only [Option.some_bind] at hres
    have hhalt : t.pc = .halted :=
      h.result_halted tid t hth (by rw [hres]; rfl)
    obtain ⟨out, c, hout, hc, hst, henv, hres'⟩ :=
      halted_thread_result h hth hpr hhalt
    rw [hres] at hres'
    have hr := Option.some.inj hres'
    have htr := h.trace_some tid t hth
    refine ⟨?_, ?_, ?_, ?_⟩
    · rw [hr]
      simp [loadedOf, countOf, hth]
    · have hmem : Event.loadCnt tid t.callId t.count ∈ pcTrace tid t := by
        simp [pcTrace, hpr, hhalt]
      rw [← htr] at hmem
      simp only [callIdOf, countOf, hth]
      exact List.mem_of_mem_filter hmem
    · intro hld
      have hmem : Event.lors tid key t.callId true ∈ pcTrace tid t := by
        simp only [loadedOf, hth] at hld
        simp [pcTrace, hpr, hhalt, ← hld]
      rw [← htr] at hmem
      simp only [callIdOf, hth]
      exact List.mem_of_mem_filter hmem
    · intro hmem
      simp only [callIdOf, hth] at hmem
      have hmem' : Event.lors tid key t.callId true ∈ thrEvents tid s.events :=
        List.mem_filter.2 ⟨hmem, by simp [Event.tid]⟩
      rw [htr] at hmem'
      simp only [loadedOf, hth]
      cases hld : t.loaded
      · cases hro : t.ranOp <;>
          simp [pcTrace, hpr, hhalt, hld, hro] at hmem'
      · rfl

/-- Claim C8: every completed `attach-and-wait` (`call.do`) performed its
atomic actions in exactly the source order: `callers.Add(1)`, then (for
the claiming invocation) the one run of `fn`, then obtaining the memoized
outcome, then `callers.Load()` (whose value is the returned count), and
only then the deferred `callers.Add(-1)` — followed, for an owner, by the
`CompareAndDelete`. -/
theorem attach_wait_order (env : Nat → V × Option E)
    (progs : List (Prog K)) (σ : List Nat) (tid : Nat) (key : K) (op : Nat)
    (s : GState K V E) (hs : s = run env (mkState progs) σ)
    (hpr : progOf s tid = some (.doCall key op))
    (hhalt : haltedAt s tid = true) :
    thrEvents tid s.events =
      [Event.lors tid key (callIdOf s tid) (loadedOf s tid),
       Event.incr tid (callIdOf s tid)]
      ++ (if ranOpOf s tid then
            [Event.beginRun tid (callIdOf s tid),
             Event.endRun tid (callIdOf s tid)]
          else [])
      ++ [Event.got tid (callIdOf s tid),
          Event.loadCnt tid (callIdOf s tid) (countOf s tid),
          Event.decrEv tid (callIdOf s tid)]
      ++ (if loadedOf s tid then []
          else [Event.cad tid key (callIdOf s tid) (cadOkOf s tid)]) := by
  have h : WF env s := hs ▸ wf_run (wf_init env progs) σ
  cases hth : s.threads tid with
  | none => rw [haltedAt, hth] at hhalt; cases hhalt
  | some t =>
    rw [progOf, hth] at hpr
    simp only [Option.map_some', Option.some.injEq] at hpr
    rw [haltedAt, hth] at hhalt
    have hpc : t.pc = .halted := by
      simpa using hhalt
    rw [h.trace_some tid t hth]
    simp [pcTrace, hpr, hpc, callIdOf, loadedOf, ranOpOf, countOf,
      cadOkOf, hth]

/-- Claim C5: no retry, no local recovery.  All callers that completed on
the same `call` instance received the identical value and the identical
error; both are relayed verbatim from the operation's own `(value, error)`
answer; and an owner always performed its `CompareAndDelete` attempt,
whatever the outcome was, so a failed key is removed like a successful
one. -/
theorem error_propagation (env : Nat → V × Option E)
    (progs : List (Prog K)) (σ : List Nat) (tid tid' : Nat) (key key' : K)
    (op op' : Nat) (r r' : V × Bool × Option E) (s : GState K V E)
    (hs : s = run env (mkState progs) σ)
    (hpr : progOf s tid = some (.doCall key op))
    (hpr' : progOf s tid' = some (.doCall key' op'))
    (hres : resultOf s tid = some r) (hres' : resultOf s tid' = some r')
    (hcid : callIdOf s tid = callIdOf s tid') :
    (r.1 = r'.1 ∧ r.2.2 = r'.2.2) ∧
    (∀ c, s.calls (callIdOf s tid) = some c →
      r.1 = (env c.opId).1 ∧ r.2.2 = (env c.opId).2) ∧
    (loadedOf s tid = false →
      Event.cad tid key (callIdOf s tid) (cadOkOf s tid) ∈ s.events) := by
  have h : WF env s := hs ▸ wf_run (wf_init env progs) σ
  cases hth : s.threads tid with
  | none => rw [resultOf, hth] at hres; cases hres
  | some t =>
    cases hth' : s.threads tid' with
    | none => rw [resultOf, hth'] at hres'; cases hres'
    | some u =>
      rw [progOf, hth] at hpr
      rw [progOf, hth'] at hpr'
      simp only [Option.map_some', Option.some.injEq] at hpr hpr'
      rw [resultOf, hth] at hres
      rw [resultOf, hth'] at hres'
      simp only [Option.some_bind] at hres hres'
      simp only [callIdOf, loadedOf, cadOkOf, hth, hth'] at hcid ⊢
      have hhalt : t.pc = .halted :=
        h.result_halted tid t hth (by rw [hres]; rfl)
      have hhalt' : u.pc = .halted :=
        h.result_halted tid' u hth' (by rw [hres']; rfl)
      obtain ⟨out, c, hout, hc, hst, henv, hr⟩ :=
        halted_thread_result h hth hpr hhalt
      obtain ⟨out', c', hout', hc', hst', henv', hr'⟩ :=
        halted_thread_result h hth' hpr' hhalt'
      rw [hcid, hc'] at hc
      cases hc
      rw [hst] at hst'
      injection hst' with hoo
      subst hoo
      rw [hres] at hr
      rw [hres'] at hr'
      have hre := Option.some.inj hr
      have hre' := Option.some.inj hr'
      refine ⟨⟨by rw [hre, hre'], by rw [hre, hre']⟩, ?_, ?_⟩
      · intro cc hcc
        rw [hcid, hc'] at hcc
        cases hcc
        constructor
        · rw [hre, ← henv']
        · rw [hre, ← henv']
      · intro hld
        have hmem : Event.cad tid key t.callId t.cadOk ∈ pcTrace tid t := by
          simp [pcTrace, hpr, hhalt, hld]
        rw [← h.trace_some tid t hth] at hmem
        exact List.mem_of_mem_filter hmem

/-- Claim C9: when the operation answers `(v, e)` with a non-nil error,
`Do` returns exactly that `v` together with that `e`: the value component
is passed through unchanged even on error. -/
theorem value_passthrough_on_error (env : Nat → V × Option E)
    (progs : List (Prog K)) (σ : List Nat) (tid : Nat) (key : K) (op : Nat)
    (v : V) (e : E) (r : V × Bool × Option E) (c : CallSt V E)
    (s : GState K V E) (hs : s = run env (mkState progs) σ)
    (hpr : progOf s tid = some (.doCall key op))
    (hres : resultOf s tid = some r)
    (hc : s.calls (callIdOf s tid) = some c)
    (henv : env c.opId = (v, some e)) :
    r.1 = v ∧ r.2.2 = some e := by
  have h : WF env s := hs ▸ wf_run (wf_init env progs) σ
  cases hth : s.threads tid with
  | none => rw [resultOf, hth] at hres; cases hres
  | some t =>
    rw [progOf, hth] at hpr
    simp only [Option.map_some', Option.some.injEq] at hpr
    rw [resultOf, hth] at hres
    simp only [Option.some_bind] at hres
    have hhalt : t.pc = .halted :=
      h.result_halted tid t hth (by rw [hres]; rfl)
    obtain ⟨out, c', hout, hc', hst, henv', hr⟩ :=
      halted_thread_result h hth hpr hhalt
    simp only [callIdOf, hth] at hc
    rw [hc'] at hc
    cases hc
    rw [hres] at hr
    have hre := Option.some.inj hr
    rw [hre, henv']
    rw [henv]
    exact ⟨rfl, rfl⟩

/-- Claim C3: registry removal by an owner is conditioned on the identity
of its own `call`.  Every `CompareAndDelete` in the log was performed by
the thread that itself stored that very `call` instance (its creator),
each thread attempts it at most once, each `call` is stored exactly once,
and at the cleanup point the step never touches the registry when the
registered execution is not the owner's own — while it removes the entry
when it is. -/
theorem identity_based_removal (env : Nat → V × Option E)
    (progs : List (Prog K)) (σ : List Nat) (s : GState K V E)
    (hs : s = run env (mkState progs) σ) :
    (∀ tid key cid ok, Event.cad tid key cid ok ∈ s.events →
      Event.lors tid key cid false ∈ s.events ∧
      ((thrEvents tid s.events).filter Event.isCad).length ≤ 1 ∧
      (s.events.filter (Event.isStoreOf cid)).length ≤ 1) ∧
    (∀ tid t, s.threads tid = some t → t.pc = .cleanup →
      t.loaded = false → s.registry t.prog.key ≠ some t.callId →
      (step env s tid).registry = s.registry ∧
      (step env s tid).calls = s.calls) ∧
    (∀ tid t out, s.threads tid = some t → t.pc = .cleanup →
      t.loaded = false → t.outcome = some out →
      s.registry t.prog.key = some t.callId →
      (step env s tid).registry t.prog.key = none) := by
  have h : WF env s := hs ▸ wf_run (wf_init env progs) σ
  refine ⟨?_, ?_, ?_⟩
  · intro tid key cid ok hmem
    have hmem' : Event.cad tid key cid ok ∈ thrEvents tid s.events :=
      List.mem_filter.2 ⟨hmem, by simp [Event.tid]⟩
    cases hth : s.threads tid with
    | none =>
      rw [h.trace_none tid hth] at hmem'
      cases hmem'
    | some t =>
      have htr := h.trace_some tid t hth
      rw [htr] at hmem'
      cases hprog : t.prog with
      | forget k =>
        rcases h.forget_pc tid t hth k hprog with hx | hx <;>
          simp [pcTrace, hprog, hx] at hmem'
      | doCall k o =>
        cases hpc : t.pc with
        | start => simp [pcTrace, hprog, hpc] at hmem'
        | incr => simp [pcTrace, hprog, hpc] at hmem'
        | obtain => simp [pcTrace, hprog, hpc] at hmem'
        | finish => simp [pcTrace, hprog, hpc] at hmem'
        | load =>
          cases hro : t.ranOp <;>
            simp [pcTrace, hprog, hpc, hro] at hmem'
        | decr =>
          cases hro : t.ranOp <;>
            simp [pcTrace, hprog, hpc, hro] at hmem'
        | cleanup =>
          cases hro : t.ranOp <;>
            simp [pcTrace, hprog, hpc, hro] at hmem'
        | halted =>
          cases hld : t.loaded
          · have hconj : key = k ∧ cid = t.callId ∧ ok = t.cadOk := by
              cases hro : t.ranOp <;>
                simp [pcTrace, hprog, hpc, hld, hro] at hmem' <;>
                exact hmem'
            obtain ⟨hk, hcid, hok⟩ := hconj
            subst hk
            subst hcid
            refine ⟨?_, ?_, h.store_uniq t.callId⟩
            · have hin : Event.lors tid key t.callId false ∈ pcTrace tid t := by
                simp [pcTrace, hprog, hpc, hld]
              rw [← htr] at hin
              exact List.mem_of_mem_filter hin
            · rw [htr]
              cases hro : t.ranOp <;>
                simp [pcTrace, hprog, hpc, hld, hro, List.filter,
                  Event.isCad]
          · cases hro : t.ranOp <;>
              simp [pcTrace, hprog, hpc, hld, hro] at hmem'
  · intro tid t hth hpc hld hreg
    cases hout : t.outcome with
    | none =>
      simp only [step, hth, hpc, hout]
      simp
    | some out =>
      simp only [step, hth, hpc, hout, hld, Bool.false_eq_true, if_false]
      rw [if_neg hreg]
      exact ⟨rfl, rfl⟩
  · intro tid t out hth hpc hld hout hreg
    simp only [step, hth, hpc, hout, hld, Bool.false_eq_true, if_false]
    rw [if_pos hreg]
    exact delKey_self _ _

/-- Claim C10: `Forget` only touches its own key.  The `LoadAndDelete`
step of a `Forget key` thread leaves the registry entry of every other
key, the whole pool of `call` instances, and the allocator unchanged
(and removes whatever was registered under `key`). -/
theorem forget_frame (env : Nat → V × Option E) (s : GState K V E)
    (tid : Nat) (t : Thread K V E) (key : K)
    (hth : s.threads tid = some t) (hpc : t.pc = .start)
    (hpr : t.prog = .forget key) :
    (∀ k, k ≠ key → (step env s tid).registry k = s.registry k) ∧
    (step env s tid).calls = s.calls ∧
    (step env s tid).nextCall = s.nextCall ∧
    (step env s tid).registry key = none := by
  simp only [step, hth, hpc, hpr]
  refine ⟨?_, trivial, trivial, ?_⟩
  · intro k hk
    exact delKey_ne _ hk
  · exact delKey_self _ _

theorem solo_init (k : K) (op : Nat) :
    SoloInv k op (mkState (V := V) (E := E) [Prog.doCall k op]) := by
  constructor
  · intro i hi
    simp only [mkState]
    rw [List.getElem?_eq_none]
    · rfl
    · simp only [List.length_singleton]
      omega
  · intro t ht
    simp only [mkState, List.length_singleton] at ht
    simp only [List.getElem?_cons_zero, Option.map_some',
      Option.some.injEq] at ht
    subst ht
    refine ⟨rfl, rfl, ?_, ?_, ?_, ?_⟩
    · intro _
      exact ⟨fun _ => rfl, rfl⟩
    · intro hx
      exact absurd rfl hx
    · intro c hc
      cases hc
    · intro hx
      rcases hx with hx | hx | hx <;> cases hx

theorem solo_step {env : Nat → V × Option E} {s : GState K V E}
    {k : K} {op : Nat} (hi : SoloInv k op s) (h : WF env s) (tid : Nat) :
    SoloInv k op (step env s tid) := by
  have hsh := step_shape env s tid
  revert hsh
  generalize step env s tid = s2
  intro hsh
  rcases hsh with _ | ⟨t, key, hth, hpc, hpr⟩
    | ⟨t, key, op', cid, hth, hpc, hpr, hreg⟩
    | ⟨t, key, op', hth, hpc, hpr, hreg⟩
    | ⟨t, c, hth, hpc, hc⟩
    | ⟨t, c, hth, hpc, hc, hst⟩
    | ⟨t, c, out, hth, hpc, hc, hst⟩
    | ⟨t, c, hth, hpc, hc⟩
    | ⟨t, c, hth, hpc, hc⟩
    | ⟨t, c, hth, hpc, hc⟩
    | ⟨t, out, hth, hpc, hout, hld⟩
    | ⟨t, out, hth, hpc, hout, hld, hreg⟩
    | ⟨t, out, hth, hpc, hout, hld, hreg⟩
  · exact hi
  all_goals
    have htid : tid = 0 := by
      by_contra hne
      rw [hi.dom tid hne] at hth
      cases hth
  all_goals subst htid
  -- forget: impossible, the only program is a Do
  · obtain ⟨hprog, _⟩ := hi.thr t hth
    rw [hprog] at hpr
    cases hpr
  -- join: impossible, the registry is empty at the start pc
  · obtain ⟨hprog, _, hstart, _⟩ := hi.thr t hth
    rw [(hstart hpc).1 key] at hreg
    cases hreg
  -- store
  · obtain ⟨hprog, hld, hstart, _, hcnt, _⟩ := hi.thr t hth
    obtain ⟨hregall, hnc⟩ := hstart hpc
    constructor
    · intro i hne
      dsimp only
      rw [setThr_ne s _ hne]
      exact hi.dom i hne
    · intro u hu
      dsimp only at hu
      rw [setThr_self] at hu
      cases hu
      dsimp only
      refine ⟨hprog, rfl, ?_, ?_, ?_, ?_⟩
      · intro hx
        cases hx
      · intro _
        omega
      · intro c hc
        rw [hnc] at hc
        rw [putCall_self] at hc
        cases hc
        rfl
      · intro hx
        rcases hx with hx | hx | hx <;> cases hx
  -- incr
  · obtain ⟨hprog, hld, _, hcid, hcnt, _⟩ := hi.thr t hth
    have hc0 : t.callId = 0 := hcid (by rw [hpc]; intro hx; cases hx)
    constructor
    · intro i hne
      dsimp only
      rw [setThr_ne s _ hne]
      exact hi.dom i hne
    · intro u hu
      dsimp only at hu
      rw [setThr_self] at hu
      cases hu
      dsimp only
      refine ⟨hprog, hld, ?_, ?_, ?_, ?_⟩
      · intro hx
        cases hx
      · intro _
        exact hc0
      · intro c' hc'
        rw [← hc0, putCall_self] at hc'
        cases hc'
        have := hcnt c (by rw [← hc0]; exact hc)
        rw [hpc] at this
        simp [soloAttached] at this ⊢
        omega
      · intro hx
        rcases hx with hx | hx | hx <;> cases hx
  -- claim
  · obtain ⟨hprog, hld, _, hcid, hcnt, _⟩ := hi.thr t hth
    have hc0 : t.callId = 0 := hcid (by rw [hpc]; intro hx; cases hx)
    constructor
    · intro i hne
      dsimp only
      rw [setThr_ne s _ hne]
      exact hi.dom i hne
    · intro u hu
      dsimp only at hu
      rw [setThr_self] at hu
      cases hu
      dsimp only
      refine ⟨hprog, hld, ?_, ?_, ?_, ?_⟩
      · intro hx
        cases hx
      · intro _
        exact hc0
      · intro c' hc'
        rw [← hc0, putCall_self] at hc'
        cases hc'
        have := hcnt c (by rw [← hc0]; exact hc)
        rw [hpc] at this
        simpa [soloAttached] using this
      · intro hx
        rcases hx with hx | hx | hx <;> cases hx
  -- read
  · obtain ⟨hprog, hld, _, hcid, hcnt, _⟩ := hi.thr t hth
    have hc0 : t.callId = 0 := hcid (by rw [hpc]; intro hx; cases hx)
    constructor
    · intro i hne
      dsimp only
      rw [setThr_ne s _ hne]
      exact hi.dom i hne
    · intro u hu
      dsimp only at hu
      rw [setThr_self] at hu
      cases hu
      dsimp only
      refine ⟨hprog, hld, ?_, ?_, ?_, ?_⟩
      · intro hx
        cases hx
      · intro _
        exact hc0
      · intro c' hc'
        have := hcnt c' hc'
        rw [hpc] at this
        simpa [soloAttached] using this
      · intro hx
        rcases hx with hx | hx | hx <;> cases hx
  -- finish
  · obtain ⟨hprog, hld, _, hcid, hcnt, _⟩ := hi.thr t hth
    have hc0 : t.callId = 0 := hcid (by rw [hpc]; intro hx; cases hx)
    constructor
    · intro i hne
      dsimp only
      rw [setThr_ne s _ hne]
      exact hi.dom i hne
    · intro u hu
      dsimp only at hu
      rw [setThr_self] at hu
      cases hu
      dsimp only
      refine ⟨hprog, hld, ?_, ?_, ?_, ?_⟩
      · intro hx
        cases hx
      · intro _
        exact hc0
      · intro c' hc'
        rw [← hc0, putCall_self] at hc'
        cases hc'
        have := hcnt c (by rw [← hc0]; exact hc)
        rw [hpc] at this
        simpa [soloAttached] using this
      · intro hx
        rcases hx with hx | hx | hx <;> cases hx
  -- load
  · obtain ⟨hprog, hld, _, hcid, hcnt, _⟩ := hi.thr t hth
    have hc0 : t.callId = 0 := hcid (by rw [hpc]; intro hx; cases hx)
    have hcallers := hcnt c (by rw [← hc0]; exact hc)
    rw [hpc] at hcallers
    simp only [soloAttached, if_pos rfl] at hcallers
    constructor
    · intro i hne
      dsimp only
      rw [setThr_ne s _ hne]
      exact hi.dom i hne
    · intro u hu
      dsimp only at hu
      rw [setThr_self] at hu
      cases hu
      dsimp only
      refine ⟨hprog, hld, ?_, ?_, ?_, ?_⟩
      · intro hx
        cases hx
      · intro _
        exact hc0
      · intro c' hc'
        have := hcnt c' hc'
        rw [hpc] at this
        simpa [soloAttached] using this
      · intro _
        omega
  -- decr
  · obtain ⟨hprog, hld, _, hcid, hcnt, hct⟩ := hi.thr t hth
    have hc0 : t.callId = 0 := hcid (by rw [hpc]; intro hx; cases hx)
    constructor
    · intro i hne
      dsimp only
      rw [setThr_ne s _ hne]
      exact hi.dom i hne
    · intro u hu
      dsimp only at hu
      rw [setThr_self] at hu
      cases hu
      dsimp only
      refine ⟨hprog, hld, ?_, ?_, ?_, ?_⟩
      · intro hx
        cases hx
      · intro _
        exact hc0
      · intro c' hc'
        rw [← hc0, putCall_self] at hc'
        cases hc'
        have := hcnt c (by rw [← hc0]; exact hc)
        rw [hpc] at this
        simp [soloAttached] at this ⊢
        omega
      · intro _
        exact hct (Or.inl hpc)
  -- haltLoaded
  · obtain ⟨hprog, hld', _⟩ := hi.thr t hth
    rw [hld'] at hld
    cases hld
  -- haltCadTrue
  · obtain ⟨hprog, hld', _, hcid, hcnt, hct⟩ := hi.thr t hth
    have hc0 : t.callId = 0 := hcid (by rw [hpc]; intro hx; cases hx)
    constructor
    · intro i hne
      dsimp only
      rw [setThr_ne s _ hne]
      exact hi.dom i hne
    · intro u hu
      dsimp only at hu
      rw [setThr_self] at hu
      cases hu
      dsimp only
      refine ⟨hprog, hld', ?_, ?_, ?_, ?_⟩
      · intro hx
        cases hx
      · intro _
        exact hc0
      · intro c' hc'
        have := hcnt c' hc'
        rw [hpc] at this
        simpa [soloAttached] using this
      · intro _
        exact hct (Or.inr (Or.inl hpc))
  -- haltCadFalse
  · obtain ⟨hprog, hld', _, hcid, hcnt, hct⟩ := hi.thr t hth
    have hc0 : t.callId = 0 := hcid (by rw [hpc]; intro hx; cases hx)
    constructor
    · intro i hne
      dsimp only
      rw [setThr_ne s _ hne]
      exact hi.dom i hne
    · intro u hu
      dsimp only at hu
      rw [setThr_self] at hu
      cases hu
      dsimp only
      refine ⟨hprog, hld', ?_, ?_, ?_, ?_⟩
      · intro hx
        cases hx
      · intro _
        exact hc0
      · intro c' hc'
        have := hcnt c' hc'
        rw [hpc] at this
        simpa [soloAttached] using this
      · intro _
        exact hct (Or.inr (Or.inl hpc))

theorem solo_run {env : Nat → V × Option E} {k : K} {op : Nat}
    (σ : List Nat) :
    SoloInv k op (run env (mkState [Prog.doCall k op]) σ) := by
  have hgen : ∀ (σ : List Nat) (s : GState K V E), SoloInv k op s →
      WF env s → SoloInv k op (run env s σ) := by
    intro σ
    induction σ with
    | nil => intro s hi _; exact hi
    | cons tid σ ih =>
      intro s hi hwf
      exact ih (step env s tid) (solo_step hi hwf tid) (wf_step hwf tid)
  exact hgen σ _ (solo_init k op) (wf_init env _)

/-- Claim C7: a single isolated `Do` call, with no other thread on its
key (the run contains exactly this one invocation), returns
`shared = false`. -/
theorem solo_not_shared (env : Nat → V × Option E) (k : K) (op : Nat)
    (σ : List Nat) (r : V × Bool × Option E) (s : GState K V E)
    (hs : s = run env (mkState [Prog.doCall k op]) σ)
    (hres : resultOf s 0 = some r) : r.2.1 = false := by
  have h : WF env s := hs ▸ wf_run (wf_init env _) σ
  have hsolo : SoloInv k op s := hs ▸ solo_run σ
  cases hth : s.threads 0 with
  | none => rw [resultOf, hth] at hres; cases hres
  | some t =>
    rw [resultOf, hth] at hres
    simp only [Option.some_bind] at hres
    have hhalt : t.pc = .halted :=
      h.result_halted 0 t hth (by rw [hres]; rfl)
    obtain ⟨hprog, hld, _, _, _, hct⟩ := hsolo.thr t hth
    obtain ⟨out, hout, hr⟩ := h.result_spec 0 t hth k op hprog hhalt
    rw [hres] at hr
    have hre := Option.some.inj hr
    have hcount : t.count ≤ 1 := hct (Or.inr (Or.inr hhalt))
    rw [hre]
    simp only [hld, Bool.false_or]
    simp only [decide_eq_false_iff_not]
    omega

/-! ### The one-key concurrent-run invariant (claim C1) -/

theorem step_events_prefix (env : Nat → V × Option E) (s : GState K V E)
    (tid : Nat) : ∃ Δ, (step env s tid).events = s.events ++ Δ := by
  have hsh := step_shape env s tid
  revert hsh
  generalize step env s tid = s2
  intro hsh
  rcases hsh
  all_goals first
  | exact ⟨[], (List.append_nil _).symm⟩
  | exact ⟨_, rfl⟩

theorem run_events_prefix (env : Nat → V × Option E) (s : GState K V E)
    (σ : List Nat) : ∃ Δ, (run env s σ).events = s.events ++ Δ := by
  induction σ generalizing s with
  | nil => exact ⟨[], (List.append_nil _).symm⟩
  | cons tid σ ih =>
    obtain ⟨Δ₁, h1⟩ := step_events_prefix env s tid
    obtain ⟨Δ₂, h2⟩ := ih (step env s tid)
    exact ⟨Δ₁ ++ Δ₂, by
      show (run env (step env s tid) σ).events = _
      rw [h2, h1, List.append_assoc]⟩

theorem step_n (env : Nat → V × Option E) (s : GState K V E)
    (tid : Nat) : (step env s tid).n = s.n := by
  have hsh := step_shape env s tid
  revert hsh
  generalize step env s tid = s2
  intro hsh
  rcases hsh <;> rfl

theorem run_n (env : Nat → V × Option E) (s : GState K V E)
    (σ : List Nat) : (run env s σ).n = s.n := by
  induction σ generalizing s with
  | nil => rfl
  | cons tid σ ih =>
    show (run env (step env s tid) σ).n = s.n
    rw [ih, step_n]

theorem oneKey_init (k : K) (op N : Nat) :
    OneKey k op
      (mkState (V := V) (E := E) (List.replicate N (Prog.doCall k op))) := by
  refine ⟨?_, ?_, ?_⟩
  · intro i t ht
    simp only [mkState, Option.map_eq_some'] at ht
    obtain ⟨p, hp, rfl⟩ := ht
    have hmem : p ∈ List.replicate N (Prog.doCall k op) :=
      List.getElem?_mem hp
    rw [List.eq_of_mem_replicate hmem]
  · exact Nat.zero_le 1
  · intro hx
    simp [mkState] at hx

theorem oneKey_step {env : Nat → V × Option E} {s : GState K V E}
    {k : K} {op : Nat} (h1 : OneKey k op s) (h : WF env s) (tid : Nat)
    (hnl : noLorsAfterCad (step env s tid).events = true) :
    OneKey k op (step env s tid) := by
  revert hnl
  have hsh := step_shape env s tid
  revert hsh
  generalize step env s tid = s2
  intro hsh
  rcases hsh with _ | ⟨t, key, hth, hpc, hpr⟩
    | ⟨t, key, op', cid, hth, hpc, hpr, hreg⟩
    | ⟨t, key, op', hth, hpc, hpr, hreg⟩
    | ⟨t, c, hth, hpc, hc⟩
    | ⟨t, c, hth, hpc, hc, hst⟩
    | ⟨t, c, out, hth, hpc, hc, hst⟩
    | ⟨t, c, hth, hpc, hc⟩
    | ⟨t, c, hth, hpc, hc⟩
    | ⟨t, c, hth, hpc, hc⟩
    | ⟨t, out, hth, hpc, hout, hld⟩
    | ⟨t, out, hth, hpc, hout, hld, hreg⟩
    | ⟨t, out, hth, hpc, hout, hld, hreg⟩ <;> intro hnl
  · exact h1
  -- forget: impossible, every program is a Do
  · rw [h1.prog tid t hth] at hpr
    cases hpr
  -- join
  · refine ⟨?_, h1.nc, ?_⟩
    · refine setThr_cases ?_ ?_
      · exact h1.prog tid t hth
      · intro i u hu _
        exact h1.prog i u hu
    · intro hn
      rcases h1.reg hn with hr | hr
      · exact Or.inl hr
      · refine Or.inr ?_
        dsimp only
        rw [List.any_append, hr]
        rfl
  -- store
  · have hkey : key = k := by
      have := h1.prog tid t hth
      rw [hpr] at this
      injection this with h1' h2'
    subst hkey
    by_cases hn : s.nextCall = 0
    · refine ⟨?_, by dsimp only; omega, ?_⟩
      · refine setThr_cases ?_ ?_
        · exact h1.prog tid t hth
        · intro i u hu _
          exact h1.prog i u hu
      · intro _
        refine Or.inl ?_
        dsimp only
        rw [hn, putKey_self]
    · have hn1 : s.nextCall = 1 := by have := h1.nc; omega
      rcases h1.reg hn1 with hr | hr
      · rw [hr] at hreg
        cases hreg
      · exfalso
        have hfalse : noLorsAfterCad
            (s.events ++ Event.lors tid key s.nextCall false :: []) =
              false := by
          apply noLorsAfterCad_no_new_lors hr
          rfl
        dsimp only at hnl
        rw [hfalse] at hnl
        cases hnl
  -- incr
  · refine ⟨?_, h1.nc, ?_⟩
    · refine setThr_cases ?_ ?_
      · exact h1.prog tid t hth
      · intro i u hu _
        exact h1.prog i u hu
    · intro hn
      rcases h1.reg hn with hr | hr
      · exact Or.inl hr
      · refine Or.inr ?_
        dsimp only
        rw [List.any_append, hr]
        rfl
  -- claim
  · refine ⟨?_, h1.nc, ?_⟩
    · refine setThr_cases ?_ ?_
      · exact h1.prog tid t hth
      · intro i u hu _
        exact h1.prog i u hu
    · intro hn
      rcases h1.reg hn with hr | hr
      · exact Or.inl hr
      · refine Or.inr ?_
        dsimp only
        rw [List.any_append, hr]
        rfl
  -- read
  · refine ⟨?_, h1.nc, ?_⟩
    · refine setThr_cases ?_ ?_
      · exact h1.prog tid t hth
      · intro i u hu _
        exact h1.prog i u hu
    · intro hn
      rcases h1.reg hn with hr | hr
      · exact Or.inl hr
      · refine Or.inr ?_
        dsimp only
        rw [List.any_append, hr]
        rfl
  -- finish
  · refine ⟨?_, h1.nc, ?_⟩
    · refine setThr_cases ?_ ?_
      · exact h1.prog tid t hth
      · intro i u hu _
        exact h1.prog i u hu
    · intro hn
      rcases h1.reg hn with hr | hr
      · exact Or.inl hr
      · refine Or.inr ?_
        dsimp only
        rw [List.any_append, hr]
        rfl
  -- load
  · refine ⟨?_, h1.nc, ?_⟩
    · refine setThr_cases ?_ ?_
      · exact h1.prog tid t hth
      · intro i u hu _
        exact h1.prog i u hu
    · intro hn
      rcases h1.reg hn with hr | hr
      · exact Or.inl hr
      · refine Or.inr ?_
        dsimp only
        rw [List.any_append, hr]
        rfl
  -- decr
  · refine ⟨?_, h1.nc, ?_⟩
    · refine setThr_cases ?_ ?_
      · exact h1.prog tid t hth
      · intro i u hu _
        exact h1.prog i u hu
    · intro hn
      rcases h1.reg hn with hr | hr
      · exact Or.inl hr
      · refine Or.inr ?_
        dsimp only
        rw [List.any_append, hr]
        rfl
  -- haltLoaded
  · refine ⟨?_, h1.nc, h1.reg⟩
    refine setThr_cases ?_ ?_
    · exact h1.prog tid t hth
    · intro i u hu _
      exact h1.prog i u hu
  -- haltCadTrue
  · refine ⟨?_, h1.nc, ?_⟩
    · refine setThr_cases ?_ ?_
      · exact h1.prog tid t hth
      · intro i u hu _
        exact h1.prog i u hu
    · intro _
      refine Or.inr ?_
      dsimp only
      rw [List.any_append]
      simp [Event.isCadTrue]
  -- haltCadFalse
  · refine ⟨?_, h1.nc, ?_⟩
    · refine setThr_cases ?_ ?_
      · exact h1.prog tid t hth
      · intro i u hu _
        exact h1.prog i u hu
    · intro hn
      rcases h1.reg hn with hr | hr
      · exact Or.inl hr
      · refine Or.inr ?_
        dsimp only
        rw [List.any_append, hr]
        rfl

theorem oneKey_run {env : Nat → V × Option E} {k : K} {op : Nat}
    (σ : List Nat) (s : GState K V E) (h1 : OneKey k op s) (hwf : WF env s)
    (hnl : noLorsAfterCad (run env s σ).events = true) :
    OneKey k op (run env s σ) := by
  induction σ generalizing s with
  | nil => exact h1
  | cons tid σ ih =>
    have hrun : run env s (tid :: σ) = run env (step env s tid) σ := rfl
    obtain ⟨Δ, hΔ⟩ := run_events_prefix env (step env s tid) σ
    have hnl' : noLorsAfterCad (step env s tid).events = true := by
      rw [hrun, hΔ] at hnl
      exact noLorsAfterCad_of_append hnl
    rw [hrun] at hnl ⊢
    exact ih (step env s tid) (oneKey_step h1 hwf tid hnl')
      (wf_step hwf tid) hnl

theorem countBeginRun_eq_execsFor_zero {l : List (Event K)}
    (h : ∀ e ∈ l, ∀ cid, Event.cid e = some cid → cid < 1) :
    countBeginRun l = execsFor 0 l := by
  unfold countBeginRun execsFor
  congr 1
  apply List.filter_congr
  intro e he
  cases e with
  | beginRun t c =>
    have hc := h _ he c rfl
    have hc0 : c = 0 := by omega
    simp [Event.isBeginRun, hc0]
  | lors t k c l => simp [Event.isBeginRun]
  | incr t c => simp [Event.isBeginRun]
  | endRun t c => simp [Event.isBeginRun]
  | got t c => simp [Event.isBeginRun]
  | loadCnt t c n => simp [Event.isBeginRun]
  | decrEv t c => simp [Event.isBeginRun]
  | cad t k c ok => simp [Event.isBeginRun]
  | forgetEv t k => simp [Event.isBeginRun]

/-- Claim C1: single execution.  For `N ≥ 1` threads all running
`Do k op`, in any completed interleaving in which every caller's
`LoadOrStore` happened before any successful registry removal (the
formalization of the `N` calls being concurrent), the caller-supplied
function was executed exactly once: the log contains exactly one
`beginRun`. -/
theorem single_execution (env : Nat → V × Option E) (k : K) (op N : Nat)
    (σ : List Nat) (s : GState K V E)
    (hs : s = run env (mkState (List.replicate N (Prog.doCall k op))) σ)
    (hN : 1 ≤ N) (hhalt : allHalted s N)
    (hnl : noLorsAfterCad s.events = true) :
    countBeginRun s.events = 1 := by
  have h : WF env s := hs ▸ wf_run (wf_init env _) σ
  have h1 : OneKey k op s := by
    rw [hs]
    exact oneKey_run σ _ (oneKey_init k op N) (wf_init env _) (hs ▸ hnl)
  have hn : s.n = N := by
    rw [hs, run_n]
    simp [mkState]
  have h0 := hhalt 0 (by omega)
  rw [haltedAt] at h0
  cases hth : s.threads 0 with
  | none => rw [hth] at h0; cases h0
  | some t =>
    rw [hth] at h0
    have hpc : t.pc = .halted := by simpa using h0
    have hprog := h1.prog 0 t hth
    obtain ⟨out, c, hout, hc, hst, henv, hr⟩ :=
      halted_thread_result h hth hprog hpc
    have hcid : t.callId < s.nextCall :=
      h.callId_lt 0 t hth k op hprog (by rw [hpc]; intro hx; cases hx)
    have hnc1 : s.nextCall = 1 := by
      have := h1.nc
      omega
    have hcid0 : t.callId = 0 := by omega
    rw [countBeginRun_eq_execsFor_zero (by
      intro e he cid hcide
      have := h.ev_lt e he cid hcide
      omega)]
    rw [← hcid0]
    rw [h.execs_status t.callId c hc, hst]
    rfl

/-! ### Scenario theorems (claims C4 and C6) -/

set_option maxHeartbeats 1600000 in
/-- Claim C6: re-entrancy after natural completion.  `Do k op₀` run to
completion, followed by `Do k op₁`, makes the second call execute its own
function `op₁` on a fresh `call` instance (instance 1, wrapping function
1, is created and runs) and report `shared = false`, because the first
call's owner removed the registry entry on completion without any
`Forget`.  Schedule: thread 0's seven steps, then thread 1's seven. -/
theorem reentrancy_after_completion (env : Nat → V × Option E) (k : K) :
    resultOf (run env (mkState [Prog.doCall k 0, Prog.doCall k 1])
        [0, 0, 0, 0, 0, 0, 0, 1, 1, 1, 1, 1, 1, 1]) 1 =
      some ((env 1).1, false, (env 1).2) ∧
    Event.beginRun 1 1 ∈
      (run env (mkState [Prog.doCall k 0, Prog.doCall k 1])
        [0, 0, 0, 0, 0, 0, 0, 1, 1, 1, 1, 1, 1, 1]).events ∧
    (run env (mkState [Prog.doCall k 0, Prog.doCall k 1])
        [0, 0, 0, 0, 0, 0, 0, 1, 1, 1, 1, 1, 1, 1]).calls 1 =
      some { opId := 1, status := .done (env 1), callers := 0 } ∧
    resultOf (run env (mkState [Prog.doCall k 0, Prog.doCall k 1])
        [0, 0, 0, 0, 0, 0, 0, 1, 1, 1, 1, 1, 1, 1]) 0 =
      some ((env 0).1, false, (env 0).2) := by
  refine ⟨?_, ?_, ?_, ?_⟩ <;>
    simp [run, step, mkState, setThr, putCall, putKey, delKey, resultOf,
      Prog.key, List.foldl]

set_option maxHeartbeats 1600000 in
/-- Claim C4: `Forget` isolates future callers.  Thread 0 runs
`Do k op₀` up to the point where `op₀` is executing (three steps), thread
1 then performs `Forget k`, thread 2 then runs `Do k op₁` to completion,
and finally thread 0 finishes.  The new call triggered a fresh execution
of `op₁` (a fresh `call` instance 1 wrapping function 1 ran) and reported
`shared = false`, while the original call still completed with its own
original result `env 0`. -/
theorem forget_isolates (env : Nat → V × Option E) (k : K) :
    resultOf (run env
        (mkState [Prog.doCall k 0, Prog.forget k, Prog.doCall k 1])
        [0, 0, 0, 1, 2, 2, 2, 2, 2, 2, 2, 0, 0, 0, 0]) 2 =
      some ((env 1).1, false, (env 1).2) ∧
    Event.beginRun 2 1 ∈
      (run env (mkState [Prog.doCall k 0, Prog.forget k, Prog.doCall k 1])
        [0, 0, 0, 1, 2, 2, 2, 2, 2, 2, 2, 0, 0, 0, 0]).events ∧
    (run env (mkState [Prog.doCall k 0, Prog.forget k, Prog.doCall k 1])
        [0, 0, 0, 1, 2, 2, 2, 2, 2, 2, 2, 0, 0, 0, 0]).calls 1 =
      some { opId := 1, status := .done (env 1), callers := 0 } ∧
    resultOf (run env
        (mkState [Prog.doCall k 0, Prog.forget k, Prog.doCall k 1])
        [0, 0, 0, 1, 2, 2, 2, 2, 2, 2, 2, 0, 0, 0, 0]) 0 =
      some ((env 0).1, false, (env 0).2) := by
  refine ⟨?_, ?_, ?_, ?_⟩ <;>
    simp [run, step, mkState, setThr, putCall, putKey, delKey, resultOf,
      Prog.key, List.foldl]

theorem single_execution_witness : countBeginRun stPair.events = 1 :=
  single_execution envA 5 0 2 schedPair stPair rfl (by decide) (by decide)
    (by decide)

theorem shared_flag_spec_witness :
    ((7 : Nat), true, (none : Option Unit)).2.1 =
      (loadedOf stPair 1 || decide (1 < countOf stPair 1)) ∧
    Event.loadCnt 1 (callIdOf stPair 1) (countOf stPair 1) ∈
      stPair.events ∧
    (loadedOf stPair 1 = true ↔
      Event.lors 1 5 (callIdOf stPair 1) true ∈ stPair.events) :=
  shared_flag_spec envA progsPair schedPair 1 5 0 (7, true, none) stPair
    rfl (by decide) (by decide)

theorem identity_based_removal_witness :
    Event.lors 0 5 0 false ∈ stPair.events :=
  ((identity_based_removal envA progsPair schedPair stPair rfl).1
    0 5 0 true (by decide)).1

theorem error_propagation_witness :
    Event.cad 0 5 (callIdOf stPairErr 0) (cadOkOf stPairErr 0) ∈
      stPairErr.events :=
  (error_propagation envErr progsPair schedPair 0 1 5 5 0 0
    (7, true, some ()) (7, true, some ()) stPairErr rfl (by decide)
    (by decide) (by decide) (by decide) (by decide)).2.2 (by decide)

theorem solo_not_shared_witness :
    ((7 : Nat), false, (some () : Option Unit)).2.1 = false :=
  solo_not_shared envErr 5 0 [0, 0, 0, 0, 0, 0, 0] (7, false, some ())
    stSolo rfl (by decide)

theorem attach_wait_order_witness :
    thrEvents 0 stPair.events =
      [Event.lors 0 5 (callIdOf stPair 0) (loadedOf stPair 0),
       Event.incr 0 (callIdOf stPair 0)]
      ++ (if ranOpOf stPair 0 then
            [Event.beginRun 0 (callIdOf stPair 0),
             Event.endRun 0 (callIdOf stPair 0)]
          else [])
      ++ [Event.got 0 (callIdOf stPair 0),
          Event.loadCnt 0 (callIdOf stPair 0) (countOf stPair 0),
          Event.decrEv 0 (callIdOf stPair 0)]
      ++ (if loadedOf stPair 0 then []
          else [Event.cad 0 5 (callIdOf stPair 0) (cadOkOf stPair 0)]) :=
  attach_wait_order envA progsPair schedPair 0 5 0 stPair rfl (by decide)
    (by decide)

theorem value_passthrough_on_error_witness :
    ((7 : Nat), false, (some () : Option Unit)).1 = 7 ∧
    ((7 : Nat), false, (some () : Option Unit)).2.2 = some () :=
  value_passthrough_on_error envErr [Prog.doCall 5 0]
    [0, 0, 0, 0, 0, 0, 0] 0 5 0 7 () (7, false, some ())
    { opId := 0, status := .done (7, some ()), callers := 0 } stSolo rfl
    (by decide) (by decide) (by decide) rfl

theorem forget_frame_witness :
    (step envA stForget 1).registry 3 = stForget.registry 3 ∧
    (step envA stForget 1).registry 5 = none :=
  ⟨(forget_frame envA stForget 1 { prog := Prog.forget 5 } 5 rfl rfl
      rfl).1 3 (by decide),
   (forget_frame envA stForget 1 { prog := Prog.forget 5 } 5 rfl rfl
      rfl).2.2.2⟩

end Inflight
